import Mathlib

/-!
Verification development for the mask statistics and geometric refinement
engine of `bern_img_utils` (`masks.py`).

Masks are modelled as their uint8 cell contents: a flattened mask is a
`List ℕ` (each value read modulo 256, matching `astype(np.uint8)` and the
uint8 bitwise operations of numpy), a two-dimensional mask is a
`List (List ℕ)` in row-major order.  Python float arithmetic on metric
values is modelled exactly over `ℚ`; Python `int()` on a nonnegative float
is truncation.  Fallible operations (exceptions, index errors, division by
zero on integers) are modelled with `Except String`.
-/

/-- Bitwise complement of a uint8 cell value: `np.bitwise_not` on `np.uint8`. -/
def bnot8 (v : ℕ) : ℕ := 255 - v % 256

/-- Number of nonzero entries of a list: `np.count_nonzero`. -/
def countNZ (l : List ℕ) : ℕ := l.countP (· != 0)

/-! ## Scorer: `mask_evaluation`

Source lines 28–66.  `likelihood` is copied and cast to uint8; `mask` is
used as a uint8 array.  The intermediate confusion counts are exposed as
named definitions so theorems can speak about them.
-/

/-- `P = np.count_nonzero(likelihood)` after the uint8 cast. -/
def evalP (lik : List ℕ) : ℕ := countNZ (lik.map (· % 256))

/-- `N = np.count_nonzero(np.bitwise_not(likelihood))`: the number of cells
whose uint8 complement is nonzero, i.e. whose value is not 255. -/
def evalN (lik : List ℕ) : ℕ := countNZ ((lik.map (· % 256)).map bnot8)

/-- `fn = np.count_nonzero(np.bitwise_and(np.bitwise_not(mask), likelihood))`. -/
def evalFN (mask lik : List ℕ) : ℕ :=
  countNZ (List.zipWith (fun m l => Nat.land (bnot8 m) (l % 256)) mask lik)

/-- `tp = np.count_nonzero(np.bitwise_and(mask, likelihood))`. -/
def evalTP (mask lik : List ℕ) : ℕ :=
  countNZ (List.zipWith (fun m l => Nat.land (m % 256) (l % 256)) mask lik)

/-- `fp = np.count_nonzero(np.bitwise_and(mask, np.bitwise_not(likelihood)))`. -/
def evalFP (mask lik : List ℕ) : ℕ :=
  countNZ (List.zipWith (fun m l => Nat.land (m % 256) (bnot8 l)) mask lik)

/-- `tn = N - fp` (Python integer subtraction, modelled in `ℤ`). -/
def evalTN (mask lik : List ℕ) : ℤ := (evalN lik : ℤ) - (evalFP mask lik : ℤ)

/-- Rate `stats["FN"] = fn / P`. -/
def statFN (mask lik : List ℕ) : ℚ := (evalFN mask lik : ℚ) / (evalP lik : ℚ)

/-- Rate `stats["TP"] = tp / P`. -/
def statTP (mask lik : List ℕ) : ℚ := (evalTP mask lik : ℚ) / (evalP lik : ℚ)

/-- Rate `stats["FP"] = fp / N`. -/
def statFP (mask lik : List ℕ) : ℚ := (evalFP mask lik : ℚ) / (evalN lik : ℚ)

/-- `stats["Recall"]`, with the zero guard of lines 51–54: the guarded
division is over the rate values `stats["TP"]` and `stats["FN"]`. -/
def statRecall (mask lik : List ℕ) : ℚ :=
  if statTP mask lik ≠ 0 ∨ statFN mask lik ≠ 0 then
    statTP mask lik / (statTP mask lik + statFN mask lik)
  else 0

/-- `stats["Precision"]`, with the zero guard of lines 56–59. -/
def statPrecision (mask lik : List ℕ) : ℚ :=
  if statTP mask lik ≠ 0 ∨ statFP mask lik ≠ 0 then
    statTP mask lik / (statTP mask lik + statFP mask lik)
  else 0

/-- Observed-agreement numerator for Cohen's kappa: the number of positions
where the two flattened arrays hold equal values. -/
def matchCount (yt yp : List ℕ) : ℕ :=
  (List.zipWith (fun a b => if a = b then (1 : ℕ) else 0) yt yp).sum

/-- Chance-agreement numerator for Cohen's kappa:
`Σ_label count(y_true = label) * count(y_pred = label)` over all labels
occurring in either sequence (a natural number; the kappa formula divides
it by `n²`). -/
def chanceSum (yt yp : List ℕ) : ℕ :=
  ((yt ++ yp).dedup.map (fun l => yt.count l * yp.count l)).sum

/-- Model of `sklearn.metrics.cohen_kappa_score(y_true, y_pred)`:
`(p_o - p_e) / (1 - p_e)` with observed agreement `p_o` and chance
agreement `p_e` computed from the label marginals. -/
def cohenKappa (yt yp : List ℕ) : ℚ :=
  let n : ℚ := (yt.length : ℚ)
  let po : ℚ := (matchCount yt yp : ℚ) / n
  let pe : ℚ := (chanceSum yt yp : ℚ) / (n * n)
  (po - pe) / (1 - pe)

/-- Metrics report of `mask_evaluation`.  The keys `F1`, `accuracy` and
`cohen_kappa` are only inserted into the Python dict when
`Precision != 0 or Recall != 0`; a missing key is modelled as `none`. -/
structure EvalReport where
  FN : ℚ
  TP : ℚ
  FP : ℚ
  Recall : ℚ
  Precision : ℚ
  F1 : Option ℚ
  accuracy : Option ℚ
  cohen_kappa : Option ℚ
deriving Repr, DecidableEq

/-- Report built by the non-raising part of `mask_evaluation` (lines 36–66).
`cohen_kappa_score` receives the uint8-cast likelihood flattened as
`y_true` and the raw mask flattened as `y_pred`. -/
def evalReport (mask lik : List ℕ) : EvalReport :=
  { FN := statFN mask lik
    TP := statTP mask lik
    FP := statFP mask lik
    Recall := statRecall mask lik
    Precision := statPrecision mask lik
    F1 :=
      if statPrecision mask lik ≠ 0 ∨ statRecall mask lik ≠ 0 then
        some ((2 * statPrecision mask lik * statRecall mask lik) /
          (statPrecision mask lik + statRecall mask lik))
      else none
    accuracy :=
      if statPrecision mask lik ≠ 0 ∨ statRecall mask lik ≠ 0 then
        some (((evalTP mask lik : ℚ) + (evalTN mask lik : ℚ)) /
          ((evalP lik : ℚ) + (evalN lik : ℚ)))
      else none
    cohen_kappa :=
      if statPrecision mask lik ≠ 0 ∨ statRecall mask lik ≠ 0 then
        some (cohenKappa (lik.map (· % 256)) mask)
      else none }

/-- `mask_evaluation(mask, likelihood)` (lines 8–66): raises
`Exception("Incorrect likelihood")` when `N == 0 or P == 0`, otherwise
returns the metrics report. -/
def mask_evaluation (mask lik : List ℕ) : Except String EvalReport :=
  if evalN lik = 0 ∨ evalP lik = 0 then Except.error "Incorrect likelihood"
  else Except.ok (evalReport mask lik)

/-! ## Scorer: `mask_sklearn_evaluation`

Source lines 69–90.  `precision_recall_fscore_support(..., average="micro")`
sums true positives, false positives and false negatives over all labels in
the union of `y_true` and `y_pred` before dividing, so each micro metric is
a ratio of the natural-number sums below.  Division by zero of Python
floats is modelled by total division on `ℚ`; no claim touches that case. -/

/-- Per-label true positives summed over all labels: positions where
`y_true` and `y_pred` agree (and hence agree on some label). -/
def microTP (yt yp : List ℕ) : ℕ := matchCount yt yp

/-- `Σ_label (TP_label + FP_label)`: total predictions carrying a label in
the label set, i.e. the number of positions whose predicted value occurs in
the union label set. -/
def microPredSum (yt yp : List ℕ) : ℕ :=
  ((yt ++ yp).dedup.map (fun l => yp.count l)).sum

/-- `Σ_label (TP_label + FN_label)` for `y_true`. -/
def microTrueSum (yt yp : List ℕ) : ℕ :=
  ((yt ++ yp).dedup.map (fun l => yt.count l)).sum

/-- Metrics report of `mask_sklearn_evaluation`. -/
structure SkReport where
  Precision : ℚ
  Recall : ℚ
  Fbeta : ℚ
  cohen_kappa : ℚ
  accuracy : ℚ
  F1 : ℚ
deriving Repr, DecidableEq

/-- `mask_sklearn_evaluation(mask, likelihood)`: micro-averaged
precision/recall/F-beta (beta = 1) plus `accuracy_score` and
`cohen_kappa_score` on the raw flattened arrays, then
`F1 = 2*P*R/(P+R)`. -/
def mask_sklearn_evaluation (mask lik : List ℕ) : SkReport :=
  let yt := lik
  let yp := mask
  let prec : ℚ := (microTP yt yp : ℚ) / (microPredSum yt yp : ℚ)
  let rec_ : ℚ := (microTP yt yp : ℚ) / (microTrueSum yt yp : ℚ)
  { Precision := prec
    Recall := rec_
    Fbeta := (2 * prec * rec_) / (prec + rec_)
    cohen_kappa := cohenKappa yt yp
    accuracy := (matchCount yt yp : ℚ) / (yt.length : ℚ)
    F1 := (2 * prec * rec_) / (prec + rec_) }

/-! ## Geometry Engine: `masks_coincidence`

Source lines 93–112.  Both masks are cast to uint8; the number of
cellwise-and-nonzero positions is divided by the smaller nonzero count.
When that minimum is zero the Python division is a division by zero,
modelled as the error case. -/

/-- Nonzero count of the cellwise `np.bitwise_and` of the two uint8 masks. -/
def coincEquals (m1 m2 : List ℕ) : ℕ :=
  countNZ (List.zipWith (fun a b => Nat.land (a % 256) (b % 256)) m1 m2)

/-- `masks_coincidence(mask1, mask2)` (lines 93–112). -/
def masks_coincidence (m1 m2 : List ℕ) : Except String ℚ :=
  let n1 := countNZ (m1.map (· % 256))
  let n2 := countNZ (m2.map (· % 256))
  if min n1 n2 = 0 then Except.error "division by zero"
  else Except.ok ((coincEquals m1 m2 : ℚ) / (min n1 n2 : ℚ))

/-! ## Encodings

The specification calls a numeric mask validly encoded when it stores
either 0/1 values or 0/255 values. -/

/-- 0/1 storage encoding. -/
def Enc01 (l : List ℕ) : Prop := ∀ v ∈ l, v = 0 ∨ v = 1

/-- 0/255 storage encoding. -/
def Enc255 (l : List ℕ) : Prop := ∀ v ∈ l, v = 0 ∨ v = 255

instance (l : List ℕ) : Decidable (Enc01 l) := by unfold Enc01; infer_instance

instance (l : List ℕ) : Decidable (Enc255 l) := by unfold Enc255; infer_instance

/-! ## Scorer lemmas -/

theorem countNZ_cons (v : ℕ) (l : List ℕ) :
    countNZ (v :: l) = countNZ l + (if v ≠ 0 then 1 else 0) := by
  simp [countNZ, List.countP_cons]

theorem cell_tp_fn (m l : ℕ)
    (h : ((m = 0 ∨ m = 1) ∧ (l = 0 ∨ l = 1)) ∨ ((m = 0 ∨ m = 255) ∧ (l = 0 ∨ l = 255))) :
    ((if Nat.land (m % 256) (l % 256) ≠ 0 then (1:ℕ) else 0) +
      (if Nat.land (bnot8 m) (l % 256) ≠ 0 then (1:ℕ) else 0)) =
      (if l % 256 ≠ 0 then 1 else 0) := by
  rcases h with ⟨hm, hl⟩ | ⟨hm, hl⟩ <;> rcases hm with rfl | rfl <;> rcases hl with rfl | rfl <;>
    decide

/-- Pointwise partition of the reference positives: under a common valid
encoding, `tp + fn = P`. -/
theorem evalTP_add_evalFN (mask lik : List ℕ) (hlen : mask.length = lik.length)
    (henc : (Enc01 mask ∧ Enc01 lik) ∨ (Enc255 mask ∧ Enc255 lik)) :
    evalTP mask lik + evalFN mask lik = evalP lik := by
  induction mask generalizing lik with
  | nil =>
    cases lik with
    | nil => rfl
    | cons l ls => simp at hlen
  | cons m ms ih =>
    cases lik with
    | nil => simp at hlen
    | cons l ls =>
      have hcell : ((m = 0 ∨ m = 1) ∧ (l = 0 ∨ l = 1)) ∨
          ((m = 0 ∨ m = 255) ∧ (l = 0 ∨ l = 255)) := by
        rcases henc with ⟨hm, hl⟩ | ⟨hm, hl⟩
        · exact Or.inl ⟨hm m (List.mem_cons_self m ms), hl l (List.mem_cons_self l ls)⟩
        · exact Or.inr ⟨hm m (List.mem_cons_self m ms), hl l (List.mem_cons_self l ls)⟩
      have htail : (Enc01 ms ∧ Enc01 ls) ∨ (Enc255 ms ∧ Enc255 ls) := by
        rcases henc with ⟨hm, hl⟩ | ⟨hm, hl⟩
        · exact Or.inl ⟨fun v hv => hm v (List.mem_cons_of_mem m hv),
            fun v hv => hl v (List.mem_cons_of_mem l hv)⟩
        · exact Or.inr ⟨fun v hv => hm v (List.mem_cons_of_mem m hv),
            fun v hv => hl v (List.mem_cons_of_mem l hv)⟩
      have hlen' : ms.length = ls.length := by simpa using hlen
      have := ih ls hlen' htail
      have hc := cell_tp_fn m l hcell
      simp only [evalTP, evalFN, evalP, List.zipWith_cons_cons, List.map_cons,
        countNZ_cons] at *
      omega

/-- In the 0/255 encoding the computed `N` really is `total - P`
(stated additively). -/
theorem evalN_enc255 (lik : List ℕ) (h : Enc255 lik) :
    evalP lik + evalN lik = lik.length := by
  induction lik with
  | nil => rfl
  | cons l ls ih =>
    have hl := h l (List.mem_cons_self l ls)
    have htail : Enc255 ls := fun v hv => h v (List.mem_cons_of_mem l hv)
    have := ih htail
    rcases hl with rfl | rfl <;>
      simp only [evalP, evalN, List.map_cons, countNZ_cons] at * <;>
      norm_num [bnot8] at * <;> omega

/-- In the 0/1 encoding no cell has value 255, so the computed `N` is the
total number of cells. -/
theorem evalN_enc01 (lik : List ℕ) (h : Enc01 lik) :
    evalN lik = lik.length := by
  have : ∀ v ∈ (lik.map (· % 256)).map bnot8, v ≠ 0 := by
    intro v hv
    simp only [List.mem_map] at hv
    obtain ⟨w, ⟨u, hu, rfl⟩, rfl⟩ := hv
    rcases h u hu with rfl | rfl <;> decide
  calc evalN lik = ((lik.map (· % 256)).map bnot8).length :=
        List.countP_eq_length.mpr (by intro a ha; simpa using this a ha)
    _ = lik.length := by simp

/-- `fp` never counts a 255-valued reference cell, hence `fp ≤ N`
(no encoding hypothesis needed). -/
theorem evalFP_le_evalN (mask lik : List ℕ) : evalFP mask lik ≤ evalN lik := by
  induction mask generalizing lik with
  | nil => simp [evalFP, evalN, countNZ]
  | cons m ms ih =>
    cases lik with
    | nil => simp [evalFP, evalN, countNZ]
    | cons l ls =>
      have := ih ls
      have hb : bnot8 (l % 256) = bnot8 l := by unfold bnot8; omega
      have hcell : (if Nat.land (m % 256) (bnot8 l) ≠ 0 then (1:ℕ) else 0) ≤
          (if bnot8 (l % 256) ≠ 0 then 1 else 0) := by
        rw [hb]
        by_cases h : bnot8 l = 0
        · simp [h, Nat.land]
        · simp only [h, ne_eq, not_false_eq_true, if_true]
          split <;> omega
      simp only [evalFP, evalN, List.zipWith_cons_cons, List.map_cons, countNZ_cons] at *
      omega

/-- Claim C1 (amended).  For same-shape masks sharing one valid encoding and
a reference containing both observable classes, `mask_evaluation` computes
`P` and `N` with `TP + FN = P` and `FP + TN = N` exactly; `N` equals
`total - P` in the 0/255 encoding, but equals the total cell count in the
0/1 encoding (the complement of a 0/1 cell is 255 or 254, never zero), and
the evaluation succeeds. -/
theorem claimC1 (mask lik : List ℕ) (hlen : mask.length = lik.length)
    (henc : (Enc01 mask ∧ Enc01 lik) ∨ (Enc255 mask ∧ Enc255 lik))
    (hP : 0 < evalP lik) (hN : 0 < evalN lik) :
    evalTP mask lik + evalFN mask lik = evalP lik ∧
    (evalFP mask lik : ℤ) + evalTN mask lik = (evalN lik : ℤ) ∧
    (Enc255 lik → evalP lik + evalN lik = lik.length) ∧
    (Enc01 lik → evalN lik = lik.length) ∧
    mask_evaluation mask lik = Except.ok (evalReport mask lik) := by
  refine ⟨evalTP_add_evalFN mask lik hlen henc, ?_, fun h => evalN_enc255 lik h,
    fun h => evalN_enc01 lik h, ?_⟩
  · unfold evalTN; ring
  · unfold mask_evaluation
    rw [if_neg]
    omega

theorem claimC1_witness :
    evalTP [1,0] [0,1] + evalFN [1,0] [0,1] = evalP [0,1] ∧
    (evalFP [1,0] [0,1] : ℤ) + evalTN [1,0] [0,1] = (evalN [0,1] : ℤ) ∧
    (Enc255 [0,1] → evalP [0,1] + evalN [0,1] = [0,1].length) ∧
    (Enc01 [0,1] → evalN [0,1] = [0,1].length) ∧
    mask_evaluation [1,0] [0,1] = Except.ok (evalReport [1,0] [0,1]) :=
  claimC1 [1,0] [0,1] (by decide) (Or.inl ⟨by decide, by decide⟩) (by decide) (by decide)

/-- Claim C1 fails as stated: the 0/1-encoded reference `[0, 1]` contains
both classes, yet the computed `N` is the total cell count 2, not
`total - P = 1`. -/
theorem claimC1_counterexample :
    Enc01 [0,1] ∧ 0 < evalP [0,1] ∧ ([0,1].countP (· == 0)) ≠ 0 ∧
    evalN [0,1] = 2 ∧ [0,1].length - evalP [0,1] = 1 := by
  refine ⟨by decide, by decide, by decide, by decide, by decide⟩

/-- Claim C2 (amended).  `mask_evaluation` fails exactly when the computed
`P` or the computed `N` is zero.  In the 0/255 encoding `N = 0` does mean
"no unselected pixel", but in the 0/1 encoding `N` is never zero on a
nonempty reference, so an all-selected 0/1 reference does not fail. -/
theorem claimC2 (mask lik : List ℕ) :
    ((∃ e, mask_evaluation mask lik = Except.error e) ↔
      (evalP lik = 0 ∨ evalN lik = 0)) ∧
    (∀ r, mask_evaluation mask lik = Except.ok r → evalP lik ≠ 0 ∧ evalN lik ≠ 0) ∧
    (Enc255 lik → (evalN lik = 0 ↔ ∀ v ∈ lik, v ≠ 0)) ∧
    (Enc01 lik → lik ≠ [] → 0 < evalN lik) := by
  refine ⟨?_, ?_, ?_, ?_⟩
  · unfold mask_evaluation
    constructor
    · rintro ⟨e, he⟩
      by_contra hc
      push_neg at hc
      rw [if_neg (by omega)] at he
      exact Except.noConfusion he
    · intro h
      rw [if_pos (by omega)]
      exact ⟨"Incorrect likelihood", rfl⟩
  · intro r hr
    unfold mask_evaluation at hr
    by_cases h : evalN lik = 0 ∨ evalP lik = 0
    · rw [if_pos h] at hr; exact Except.noConfusion hr
    · omega
  · intro henc
    unfold evalN countNZ
    constructor
    · intro h0 v hv hv0
      subst hv0
      have hmem : bnot8 (0 % 256) ∈ (lik.map (· % 256)).map bnot8 := by
        simp only [List.map_map, List.mem_map, Function.comp_apply]
        exact ⟨0, hv, rfl⟩
      exact (List.countP_eq_zero.mp h0 _ hmem) (by decide)
    · intro hall
      rw [List.countP_eq_zero]
      intro a ha
      simp only [List.map_map, List.mem_map, Function.comp_apply] at ha
      obtain ⟨v, hv, rfl⟩ := ha
      rcases henc v hv with rfl | rfl
      · exact absurd rfl (hall 0 hv)
      · decide
  · intro henc hne
    rw [evalN_enc01 lik henc]
    exact List.length_pos.mpr hne

theorem claimC2_witness : ∃ e, mask_evaluation [5] [0] = Except.error e :=
  (claimC2 [5] [0]).1.mpr (by decide)

/-- Claim C2 fails as stated: the 0/1-encoded reference `[1, 1]` has no
unselected pixel, yet `mask_evaluation` succeeds instead of raising. -/
theorem claimC2_counterexample :
    Enc01 [1,1] ∧ ([1,1].countP (· == 0)) = 0 ∧
    (mask_evaluation [1,1] [1,1]).isOk = true := by
  exact ⟨by decide, by decide, by decide⟩

/-- Claim C3 (amended).  Whenever `mask_evaluation` produces a report
containing an agreement coefficient, that coefficient equals the one
reported by `mask_sklearn_evaluation` — both call `cohen_kappa_score` on
the same flattened pair.  The Precision/Recall/F1/accuracy values are
computed by different formulas (micro-averaged versus rate-based) and do
not agree in general; see the counterexample. -/
theorem claimC3 (mask lik : List ℕ) (hlik : ∀ v ∈ lik, v < 256) (r : EvalReport)
    (hr : mask_evaluation mask lik = Except.ok r) (k : ℚ)
    (hk : r.cohen_kappa = some k) :
    (mask_sklearn_evaluation mask lik).cohen_kappa = k := by
  unfold mask_evaluation at hr
  by_cases h : evalN lik = 0 ∨ evalP lik = 0
  · rw [if_pos h] at hr; exact Except.noConfusion hr
  · rw [if_neg h] at hr
    have hrr : r = evalReport mask lik := (Except.ok.injEq _ _).mp hr.symm
    subst hrr
    unfold evalReport at hk
    by_cases hg : statPrecision mask lik ≠ 0 ∨ statRecall mask lik ≠ 0
    · simp only [hg, if_true, Option.some.injEq] at hk
      have hmap : lik.map (· % 256) = lik :=
        (List.map_congr_left fun a ha => Nat.mod_eq_of_lt (hlik a ha)).trans lik.map_id
      rw [hmap] at hk
      rw [← hk]
      rfl
    · simp only [hg, if_false] at hk
      exact Option.noConfusion hk

theorem claimC3_witness : (mask_sklearn_evaluation [1,0] [1,0]).cohen_kappa = 1 := by
  have hguard : ¬(evalN [1,0] = 0 ∨ evalP [1,0] = 0) := by decide
  have hr : mask_evaluation [1,0] [1,0] = Except.ok (evalReport [1,0] [1,0]) := by
    rw [mask_evaluation, if_neg hguard]
  have hTP : statTP [1,0] [1,0] = 1 := by
    have h1 : evalTP [1,0] [1,0] = 1 := by decide
    have h2 : evalP [1,0] = 1 := by decide
    rw [statTP, h1, h2]; norm_num
  have hFP : statFP [1,0] [1,0] = 0 := by
    have h1 : evalFP [1,0] [1,0] = 0 := by decide
    rw [statFP, h1]; norm_num
  have hprec : statPrecision [1,0] [1,0] = 1 := by
    rw [statPrecision, if_pos (Or.inl (by rw [hTP]; norm_num)), hTP, hFP]; norm_num
  have hkappa : cohenKappa ([1,0].map (· % 256)) [1,0] = 1 := by
    have h1 : matchCount ([1,0].map (· % 256)) [1,0] = 2 := by decide
    have h2 : chanceSum ([1,0].map (· % 256)) [1,0] = 2 := by decide
    have h3 : ([1,0].map (· % 256)).length = 2 := by decide
    rw [cohenKappa]; rw [h1, h2, h3]; norm_num
  have hk : (evalReport [1,0] [1,0]).cohen_kappa = some 1 := by
    show (if statPrecision [1,0] [1,0] ≠ 0 ∨ statRecall [1,0] [1,0] ≠ 0 then
      some (cohenKappa ([1,0].map (· % 256)) [1,0]) else none) = some 1
    rw [if_pos (Or.inl (by rw [hprec]; norm_num)), hkappa]
  exact claimC3 [1,0] [1,0] (by decide) (evalReport [1,0] [1,0]) hr 1 hk

/-- Claim C3 fails as stated: on the well-posed 0/1 pair
`mask = [1,0,0]`, `reference = [1,1,0]` (both classes present, `TP+FP = 1 > 0`,
all reports produced) the manual Precision is `1` while the micro-averaged
sklearn Precision is `2/3`; Recall is `1/2` versus `2/3` and accuracy `4/5`
versus `2/3` — far beyond floating-point tolerance. -/
theorem claimC3_counterexample :
    mask_evaluation [1,0,0] [1,1,0] = Except.ok (evalReport [1,0,0] [1,1,0]) ∧
    evalTP [1,0,0] [1,1,0] + evalFP [1,0,0] [1,1,0] = 1 ∧
    (evalReport [1,0,0] [1,1,0]).Precision = 1 ∧
    (mask_sklearn_evaluation [1,0,0] [1,1,0]).Precision = 2/3 ∧
    (evalReport [1,0,0] [1,1,0]).Recall = 1/2 ∧
    (mask_sklearn_evaluation [1,0,0] [1,1,0]).Recall = 2/3 ∧
    (evalReport [1,0,0] [1,1,0]).accuracy = some (4/5) ∧
    (mask_sklearn_evaluation [1,0,0] [1,1,0]).accuracy = 2/3 := by
  have hTPn : evalTP [1,0,0] [1,1,0] = 1 := by decide
  have hFNn : evalFN [1,0,0] [1,1,0] = 1 := by decide
  have hFPn : evalFP [1,0,0] [1,1,0] = 0 := by decide
  have hPn : evalP [1,1,0] = 2 := by decide
  have hNn : evalN [1,1,0] = 3 := by decide
  have hTP : statTP [1,0,0] [1,1,0] = 1/2 := by rw [statTP, hTPn, hPn]; norm_num
  have hFN : statFN [1,0,0] [1,1,0] = 1/2 := by rw [statFN, hFNn, hPn]; norm_num
  have hFP : statFP [1,0,0] [1,1,0] = 0 := by rw [statFP, hFPn]; norm_num
  have hprec : statPrecision [1,0,0] [1,1,0] = 1 := by
    rw [statPrecision, if_pos (Or.inl (by rw [hTP]; norm_num)), hTP, hFP]; norm_num
  have hrec : statRecall [1,0,0] [1,1,0] = 1/2 := by
    rw [statRecall, if_pos (Or.inl (by rw [hTP]; norm_num)), hTP, hFN]; norm_num
  have hTN : evalTN [1,0,0] [1,1,0] = 3 := by rw [evalTN, hNn, hFPn]; norm_num
  have hmTP : microTP [1,1,0] [1,0,0] = 2 := by decide
  have hmPred : microPredSum [1,1,0] [1,0,0] = 3 := by decide
  have hmTrue : microTrueSum [1,1,0] [1,0,0] = 3 := by decide
  have hmatch : matchCount [1,1,0] [1,0,0] = 2 := by decide
  refine ⟨?_, by decide, ?_, ?_, ?_, ?_, ?_, ?_⟩
  · rw [mask_evaluation, if_neg (by decide)]
  · show statPrecision [1,0,0] [1,1,0] = 1
    exact hprec
  · show (microTP [1,1,0] [1,0,0] : ℚ) / (microPredSum [1,1,0] [1,0,0] : ℚ) = 2/3
    rw [hmTP, hmPred]; norm_num
  · show statRecall [1,0,0] [1,1,0] = 1/2
    exact hrec
  · show (microTP [1,1,0] [1,0,0] : ℚ) / (microTrueSum [1,1,0] [1,0,0] : ℚ) = 2/3
    rw [hmTP, hmTrue]; norm_num
  · show (if statPrecision [1,0,0] [1,1,0] ≠ 0 ∨ statRecall [1,0,0] [1,1,0] ≠ 0 then
      some (((evalTP [1,0,0] [1,1,0] : ℚ) + (evalTN [1,0,0] [1,1,0] : ℚ)) /
        ((evalP [1,1,0] : ℚ) + (evalN [1,1,0] : ℚ))) else none) = some (4/5)
    rw [if_pos (Or.inl (by rw [hprec]; norm_num)), hTPn, hTN, hPn, hNn]
    norm_num
  · show (matchCount [1,1,0] [1,0,0] : ℚ) / (([1,1,0] : List ℕ).length : ℚ) = 2/3
    rw [hmatch]; norm_num

/-- Claim C4 (confirmed).  On any non-degenerate input, when Precision and
Recall are not both zero the report carries
`F1 = 2*Precision*Recall/(Precision+Recall)`,
`accuracy = (TP+TN)/(P+N)` (raw counts) and the Cohen's-kappa agreement
coefficient; when both are zero the three keys are absent (`none`), not
present with value zero. -/
theorem claimC4 (mask lik : List ℕ) (r : EvalReport)
    (hr : mask_evaluation mask lik = Except.ok r) :
    ((r.Precision = 0 ∧ r.Recall = 0) →
      r.F1 = none ∧ r.accuracy = none ∧ r.cohen_kappa = none) ∧
    (¬(r.Precision = 0 ∧ r.Recall = 0) →
      r.F1 = some ((2 * r.Precision * r.Recall) / (r.Precision + r.Recall)) ∧
      r.accuracy = some (((evalTP mask lik : ℚ) + (evalTN mask lik : ℚ)) /
        ((evalP lik : ℚ) + (evalN lik : ℚ))) ∧
      r.cohen_kappa = some (cohenKappa (lik.map (· % 256)) mask)) := by
  unfold mask_evaluation at hr
  by_cases h : evalN lik = 0 ∨ evalP lik = 0
  · rw [if_pos h] at hr; exact Except.noConfusion hr
  · rw [if_neg h] at hr
    have hrr : r = evalReport mask lik := (Except.ok.injEq _ _).mp hr.symm
    subst hrr
    have hP : (evalReport mask lik).Precision = statPrecision mask lik := rfl
    have hR : (evalReport mask lik).Recall = statRecall mask lik := rfl
    constructor
    · intro hz
      rw [hP, hR] at hz
      have hg : ¬(statPrecision mask lik ≠ 0 ∨ statRecall mask lik ≠ 0) := by
        push_neg
        exact hz
      show (if statPrecision mask lik ≠ 0 ∨ statRecall mask lik ≠ 0 then _ else none) = none ∧
        (if statPrecision mask lik ≠ 0 ∨ statRecall mask lik ≠ 0 then _ else none) = none ∧
        (if statPrecision mask lik ≠ 0 ∨ statRecall mask lik ≠ 0 then _ else none) = none
      rw [if_neg hg, if_neg hg, if_neg hg]
      exact ⟨rfl, rfl, rfl⟩
    · intro hnz
      rw [hP, hR] at hnz
      have hg : statPrecision mask lik ≠ 0 ∨ statRecall mask lik ≠ 0 := by
        by_contra hc
        push_neg at hc
        exact hnz ⟨hc.1, hc.2⟩
      refine ⟨?_, ?_, ?_⟩
      · show (if statPrecision mask lik ≠ 0 ∨ statRecall mask lik ≠ 0 then
          some ((2 * statPrecision mask lik * statRecall mask lik) /
            (statPrecision mask lik + statRecall mask lik)) else none) = _
        rw [if_pos hg, hP, hR]
      · show (if statPrecision mask lik ≠ 0 ∨ statRecall mask lik ≠ 0 then
          some (((evalTP mask lik : ℚ) + (evalTN mask lik : ℚ)) /
            ((evalP lik : ℚ) + (evalN lik : ℚ))) else none) = _
        rw [if_pos hg]
      · show (if statPrecision mask lik ≠ 0 ∨ statRecall mask lik ≠ 0 then
          some (cohenKappa (lik.map (· % 256)) mask) else none) = _
        rw [if_pos hg]

theorem claimC4_witness :
    (evalReport [1,1] [1,0]).F1 = some (4/5) ∧
    (evalReport [1,1] [1,0]).accuracy = some (2/3) ∧
    (evalReport [1,1] [1,0]).cohen_kappa = some 0 := by
  have hr : mask_evaluation [1,1] [1,0] = Except.ok (evalReport [1,1] [1,0]) := by
    rw [mask_evaluation, if_neg (by decide)]
  have hTP : statTP [1,1] [1,0] = 1 := by
    have h1 : evalTP [1,1] [1,0] = 1 := by decide
    have h2 : evalP [1,0] = 1 := by decide
    rw [statTP, h1, h2]; norm_num
  have hFN : statFN [1,1] [1,0] = 0 := by
    have h1 : evalFN [1,1] [1,0] = 0 := by decide
    rw [statFN, h1]; norm_num
  have hFP : statFP [1,1] [1,0] = 1/2 := by
    have h1 : evalFP [1,1] [1,0] = 1 := by decide
    have h2 : evalN [1,0] = 2 := by decide
    rw [statFP, h1, h2]; norm_num
  have hprec : statPrecision [1,1] [1,0] = 2/3 := by
    rw [statPrecision, if_pos (Or.inl (by rw [hTP]; norm_num)), hTP, hFP]; norm_num
  have hrec : statRecall [1,1] [1,0] = 1 := by
    rw [statRecall, if_pos (Or.inl (by rw [hTP]; norm_num)), hTP, hFN]; norm_num
  have hnz : ¬((evalReport [1,1] [1,0]).Precision = 0 ∧ (evalReport [1,1] [1,0]).Recall = 0) := by
    intro hc
    have : statPrecision [1,1] [1,0] = 0 := hc.1
    rw [hprec] at this
    norm_num at this
  obtain ⟨h1, h2, h3⟩ := (claimC4 [1,1] [1,0] (evalReport [1,1] [1,0]) hr).2 hnz
  refine ⟨?_, ?_, ?_⟩
  · rw [h1]
    have : (evalReport [1,1] [1,0]).Precision = statPrecision [1,1] [1,0] := rfl
    rw [this, hprec]
    have : (evalReport [1,1] [1,0]).Recall = statRecall [1,1] [1,0] := rfl
    rw [this, hrec]
    norm_num
  · rw [h2]
    have hTPn : evalTP [1,1] [1,0] = 1 := by decide
    have hTN : evalTN [1,1] [1,0] = 1 := by
      rw [evalTN, show evalN [1,0] = 2 from by decide, show evalFP [1,1] [1,0] = 1 from by decide]
      norm_num
    rw [hTPn, hTN, show evalP [1,0] = 1 from by decide, show evalN [1,0] = 2 from by decide]
    norm_num
  · rw [h3]
    have h1 : matchCount ([1,0].map (· % 256)) [1,1] = 1 := by decide
    have h2 : chanceSum ([1,0].map (· % 256)) [1,1] = 2 := by decide
    have h3 : ([1,0].map (· % 256)).length = 2 := by decide
    rw [cohenKappa, h1, h2, h3]
    norm_num

/-! ## Coincidence lemmas -/

theorem coincEquals_le_left (m1 m2 : List ℕ) :
    coincEquals m1 m2 ≤ countNZ (m1.map (· % 256)) := by
  induction m1 generalizing m2 with
  | nil => simp [coincEquals, countNZ]
  | cons a as ih =>
    cases m2 with
    | nil => simp [coincEquals, countNZ]
    | cons b bs =>
      have := ih bs
      have hcell : (if Nat.land (a % 256) (b % 256) ≠ 0 then (1:ℕ) else 0) ≤
          (if a % 256 ≠ 0 then 1 else 0) := by
        by_cases h : a % 256 = 0
        · simp [h, Nat.land]
        · simp only [h, ne_eq, not_false_eq_true, if_true]
          split <;> omega
      simp only [coincEquals, List.zipWith_cons_cons, List.map_cons, countNZ_cons] at *
      omega

theorem coincEquals_le_right (m1 m2 : List ℕ) :
    coincEquals m1 m2 ≤ countNZ (m2.map (· % 256)) := by
  induction m1 generalizing m2 with
  | nil => simp [coincEquals, countNZ]
  | cons a as ih =>
    cases m2 with
    | nil => simp [coincEquals, countNZ]
    | cons b bs =>
      have := ih bs
      have hcell : (if Nat.land (a % 256) (b % 256) ≠ 0 then (1:ℕ) else 0) ≤
          (if b % 256 ≠ 0 then 1 else 0) := by
        by_cases h : b % 256 = 0
        · simp [h, Nat.land]
        · simp only [h, ne_eq, not_false_eq_true, if_true]
          split <;> omega
      simp only [coincEquals, List.zipWith_cons_cons, List.map_cons, countNZ_cons] at *
      omega

theorem coincEquals_self (m : List ℕ) : coincEquals m m = countNZ (m.map (· % 256)) := by
  unfold coincEquals
  rw [List.zipWith_same]
  congr 1
  exact List.map_congr_left fun a _ => Nat.and_self _

/-- Claim C6 (amended).  `masks_coincidence` returns
`|A ∩ B| / min(|A|, |B|)`, a value in `[0, 1]`, and returns exactly `1` on
equal non-empty masks; but it hits the division by zero whenever
`min(|A|, |B|) = 0`, that is, as soon as at least one of the two masks is
empty — not only when both are. -/
theorem claimC6 (m1 m2 : List ℕ) :
    ((∃ e, masks_coincidence m1 m2 = Except.error e) ↔
      (countNZ (m1.map (· % 256)) = 0 ∨ countNZ (m2.map (· % 256)) = 0)) ∧
    (∀ q, masks_coincidence m1 m2 = Except.ok q → 0 ≤ q ∧ q ≤ 1) ∧
    (countNZ (m1.map (· % 256)) ≠ 0 → masks_coincidence m1 m1 = Except.ok 1) := by
  refine ⟨?_, ?_, ?_⟩
  · unfold masks_coincidence
    constructor
    · rintro ⟨e, he⟩
      by_contra hc
      push_neg at hc
      rw [if_neg (by omega)] at he
      exact Except.noConfusion he
    · intro h
      rw [if_pos (by omega)]
      exact ⟨"division by zero", rfl⟩
  · intro q hq
    unfold masks_coincidence at hq
    by_cases h : min (countNZ (m1.map (· % 256))) (countNZ (m2.map (· % 256))) = 0
    · rw [if_pos h] at hq; exact Except.noConfusion hq
    · rw [if_neg h] at hq
      have hqq : q = (coincEquals m1 m2 : ℚ) /
          (min (countNZ (m1.map (· % 256))) (countNZ (m2.map (· % 256))) : ℚ) :=
        ((Except.ok.injEq _ _).mp hq).symm
      subst hqq
      have hle : coincEquals m1 m2 ≤
          min (countNZ (m1.map (· % 256))) (countNZ (m2.map (· % 256))) :=
        le_min (coincEquals_le_left m1 m2) (coincEquals_le_right m1 m2)
      constructor
      · positivity
      · rw [div_le_one (by exact_mod_cast Nat.pos_of_ne_zero h)]
        exact_mod_cast hle
  · intro hne
    unfold masks_coincidence
    rw [if_neg (by omega)]
    rw [coincEquals_self]
    rw [min_self]
    rw [div_self (by exact_mod_cast hne)]

theorem claimC6_witness : masks_coincidence [1] [1] = Except.ok 1 :=
  (claimC6 [1] [1]).2.2 (by decide)

/-- Claim C6 fails as stated: with `A = [0]` empty and `B = [1]` non-empty
(same shape), the minimum count is zero and the call fails by division by
zero even though not both masks are empty. -/
theorem claimC6_counterexample :
    (∃ e, masks_coincidence [0] [1] = Except.error e) ∧
    countNZ ([1].map (· % 256)) ≠ 0 ∧ ([0] : List ℕ).length = ([1] : List ℕ).length := by
  refine ⟨⟨"division by zero", rfl⟩, by decide, rfl⟩

/-! ## Two-dimensional grids

A mask image is a `List (List ℕ)` of uint8 cell values in row-major order.
Positions are `(row, col)` pairs. -/

/-- Number of rows: `shape[0]`. -/
def gridH (g : List (List ℕ)) : ℕ := g.length

/-- Number of columns: `shape[1]` (length of the first row). -/
def gridW (g : List (List ℕ)) : ℕ := (g.headD []).length

/-- Cell value at `(row, col)`; reads outside the lists default to 0. -/
def gVal (g : List (List ℕ)) (p : ℕ × ℕ) : ℕ := (g.getD p.1 []).getD p.2 0

/-- Bounds test against the array shape. -/
def inBounds (g : List (List ℕ)) (p : ℕ × ℕ) : Bool :=
  decide (p.1 < gridH g) && decide (p.2 < gridW g)

/-- Rectangularity: every row has the common width (numpy arrays are
rectangular). -/
def IsRect (g : List (List ℕ)) : Prop := ∀ row ∈ g, row.length = gridW g

instance (g : List (List ℕ)) : Decidable (IsRect g) := by unfold IsRect; infer_instance

/-- 4-neighbourhood used by `cv2.floodFill` (default connectivity). -/
def nbrs4 (p : ℕ × ℕ) : List (ℕ × ℕ) :=
  [(p.1 + 1, p.2), (p.1, p.2 + 1)] ++
    (if p.1 = 0 then [] else [(p.1 - 1, p.2)]) ++
    (if p.2 = 0 then [] else [(p.1, p.2 - 1)])

/-- 8-neighbourhood used by contour/connected-component extraction. -/
def nbrs8 (p : ℕ × ℕ) : List (ℕ × ℕ) :=
  nbrs4 p ++
    [(p.1 + 1, p.2 + 1)] ++
    (if p.1 = 0 then [] else [(p.1 - 1, p.2 + 1)]) ++
    (if p.2 = 0 then [] else [(p.1 + 1, p.2 - 1)]) ++
    (if p.1 = 0 ∨ p.2 = 0 then [] else [(p.1 - 1, p.2 - 1)])

/-- Foreground neighbours of the frontier not yet visited. -/
def bfsFresh (fg : ℕ × ℕ → Bool) (nb : ℕ × ℕ → List (ℕ × ℕ))
    (visited frontier : List (ℕ × ℕ)) : List (ℕ × ℕ) :=
  ((frontier.flatMap nb).filter (fun q => fg q && !(decide (q ∈ visited)))).dedup

/-- Breadth-first closure: repeatedly add unvisited foreground neighbours of
the current frontier.  The fuel bounds the number of growth rounds; each
round that does not stop adds at least one new position. -/
def bfsAux (fg : ℕ × ℕ → Bool) (nb : ℕ × ℕ → List (ℕ × ℕ)) :
    ℕ → List (ℕ × ℕ) → List (ℕ × ℕ) → List (ℕ × ℕ)
  | 0, visited, _ => visited
  | fuel + 1, visited, frontier =>
    if bfsFresh fg nb visited frontier = [] then visited
    else bfsAux fg nb fuel (visited ++ bfsFresh fg nb visited frontier)
      (bfsFresh fg nb visited frontier)

/-- Region growing from a seed list. -/
def floodFrom (fg : ℕ × ℕ → Bool) (nb : ℕ × ℕ → List (ℕ × ℕ))
    (seeds : List (ℕ × ℕ)) (fuel : ℕ) : List (ℕ × ℕ) :=
  bfsAux fg nb fuel seeds.dedup seeds.dedup

/-- All grid positions in raster order (row-major, top-left first). -/
def rasterPositions (H W : ℕ) : List (ℕ × ℕ) :=
  (List.range H).flatMap (fun y => (List.range W).map fun x => (y, x))

/-- Connected components of the foreground predicate, discovered in raster
order: the deterministic re-derivation of the contour-traversal order that
the design notes require.  Each component list begins with its raster-first
seed. -/
def componentsIn (H W : ℕ) (fg : ℕ × ℕ → Bool) : List (List (ℕ × ℕ)) :=
  (rasterPositions H W).foldl
    (fun acc p =>
      if fg p && !(acc.any (fun c => decide (p ∈ c))) then
        acc ++ [floodFrom fg nbrs8 [p] (H * W)]
      else acc) []

/-! ## Border tracing and polygon rasterisation

`cv2.findContours` returns, for each connected region of nonzero pixels,
the ordered cycle of its outer border pixels (Suzuki border following);
`cv2.drawContours`/`cv2.fillPoly` with thickness `-1` paint every pixel
lying inside or on that polygon.  The tracing below is radial-sweep border
following on the 8-neighbourhood, started at the raster-first pixel of a
component, with directions indexed clockwise from east. -/

/-- Clockwise direction offsets `(dy, dx)` starting east. -/
def dirOffs : List (ℤ × ℤ) :=
  [(0,1), (1,1), (1,0), (1,-1), (0,-1), (-1,-1), (-1,0), (-1,1)]

/-- Offset of direction index `d` (mod 8). -/
def dirOff (d : ℕ) : ℤ × ℤ := dirOffs.getD (d % 8) (0, 1)

/-- Move one step in direction `d`. -/
def stepPos (p : ℤ × ℤ) (d : ℕ) : ℤ × ℤ := (p.1 + (dirOff d).1, p.2 + (dirOff d).2)

/-- First foreground direction scanning clockwise from `sStart`. -/
def findDir (fgb : ℤ × ℤ → Bool) (cur : ℤ × ℤ) (sStart : ℕ) : Option ℕ :=
  (List.range 8).findSome? (fun i =>
    let d := (sStart + i) % 8
    if fgb (stepPos cur d) then some d else none)

/-- Border-following loop; stops on returning to the start pixel about to
repeat the initial direction, or when the fuel runs out. -/
def traceAux (fgb : ℤ × ℤ → Bool) (s : ℤ × ℤ) (d0 : ℕ) :
    ℕ → ℤ × ℤ → ℕ → List (ℤ × ℤ) → List (ℤ × ℤ)
  | 0, _, _, acc => acc.reverse
  | fuel + 1, cur, sStart, acc =>
    match findDir fgb cur sStart with
    | none => acc.reverse
    | some d =>
      if cur = s ∧ d = d0 then acc.reverse
      else traceAux fgb s d0 fuel (stepPos cur d) ((d + 5) % 8) (stepPos cur d :: acc)

/-- Outer border cycle of the region of `fgb` containing `s` (returns `[s]`
for an isolated pixel, `[]` if `s` is background).  The head of the result
is always `s`. -/
def traceBoundary (fgb : ℤ × ℤ → Bool) (s : ℤ × ℤ) (fuel : ℕ) : List (ℤ × ℤ) :=
  if fgb s then
    match findDir fgb s 0 with
    | none => [s]
    | some d0 =>
      s :: traceAux fgb s d0 fuel (stepPos s d0) ((d0 + 5) % 8) [stepPos s d0]
  else []

/-- Foreground predicate lifted to signed coordinates. -/
def fgZof (fg : ℕ × ℕ → Bool) (p : ℤ × ℤ) : Bool :=
  decide (0 ≤ p.1) && decide (0 ≤ p.2) && fg (p.1.toNat, p.2.toNat)

/-- Border trace of the component seeded at `seed`, in `(row, col)`
coordinates. -/
def traceOf (fg : ℕ × ℕ → Bool) (seed : ℕ × ℕ) (fuel : ℕ) : List (ℤ × ℤ) :=
  traceBoundary (fgZof fg) ((seed.1 : ℤ), (seed.2 : ℤ)) fuel

/-- Contour in OpenCV point order `(x, y) = (col, row)`. -/
def cntPoints (fg : ℕ × ℕ → Bool) (seed : ℕ × ℕ) (fuel : ℕ) : List (ℤ × ℤ) :=
  (traceOf fg seed fuel).map (fun p => (p.2, p.1))

/-- Consecutive edge pairs of a closed polygon. -/
def polyClose (pts : List (ℤ × ℤ)) : List ((ℤ × ℤ) × (ℤ × ℤ)) :=
  List.zip pts (pts.drop 1 ++ pts.take 1)

/-- Twice the signed polygon area (shoelace sum `Σ x_i·y_{i+1} − x_{i+1}·y_i`);
`cv2.contourArea` and the `m00` moment equal half of this (in absolute
value for the area). -/
def shoelace2 (pts : List (ℤ × ℤ)) : ℤ :=
  (polyClose pts).foldr (fun e acc => acc + (e.1.1 * e.2.2 - e.2.1 * e.1.2)) 0

/-- `cv2.contourArea`: `|m00| = |shoelace2| / 2`. -/
def contourArea (pts : List (ℤ × ℤ)) : ℚ := ((shoelace2 pts).natAbs : ℚ) / 2

/-- Six times the Green-formula moment `m10` of the polygon. -/
def mTenSix (pts : List (ℤ × ℤ)) : ℤ :=
  (polyClose pts).foldr
    (fun e acc => acc + (e.1.1 + e.2.1) * (e.1.1 * e.2.2 - e.2.1 * e.1.2)) 0

/-- Six times the Green-formula moment `m01` of the polygon. -/
def mZeroOneSix (pts : List (ℤ × ℤ)) : ℤ :=
  (polyClose pts).foldr
    (fun e acc => acc + (e.1.2 + e.2.2) * (e.1.1 * e.2.2 - e.2.1 * e.1.2)) 0

/-- Python `int(m10/m00)`: exact truncation of
`(m10six/6) / (shoelace2/2) = m10six / (3·shoelace2)` toward zero. -/
def centroidXI (pts : List (ℤ × ℤ)) : ℤ := Int.tdiv (mTenSix pts) (3 * shoelace2 pts)

/-- Python `int(m01/m00)`, the truncated centroid y-coordinate. -/
def centroidYI (pts : List (ℤ × ℤ)) : ℤ := Int.tdiv (mZeroOneSix pts) (3 * shoelace2 pts)

/-- Point `q` lies on the closed segment `[a, b]` (integer collinearity and
bounding-box test). -/
def onSeg (a b q : ℤ × ℤ) : Bool :=
  decide ((b.1 - a.1) * (q.2 - a.2) - (b.2 - a.2) * (q.1 - a.1) = 0) &&
  decide (min a.1 b.1 ≤ q.1) && decide (q.1 ≤ max a.1 b.1) &&
  decide (min a.2 b.2 ≤ q.2) && decide (q.2 ≤ max a.2 b.2)

/-- Horizontal ray-crossing test for one polygon edge (strictly to the right
of `q`; boundary points are handled separately by `onSeg`). -/
def rayHits (a b q : ℤ × ℤ) : Bool :=
  ((decide (q.2 < a.2)) != (decide (q.2 < b.2))) &&
  (let nu := (a.1 - q.1) * (b.2 - a.2) + (q.2 - a.2) * (b.1 - a.1)
   if a.2 < b.2 then decide (0 < nu) else decide (nu < 0))

/-- Inclusive point-in-polygon test: on an edge, or odd crossing parity. -/
def inOrOnPoly (pts : List (ℤ × ℤ)) (q : ℤ × ℤ) : Bool :=
  !pts.isEmpty &&
  ((polyClose pts).any (fun e => onSeg e.1 e.2 q) ||
   decide (((polyClose pts).countP (fun e => rayHits e.1 e.2 q)) % 2 = 1))

/-- `cv2.fillPoly(zeros(H, W), [pts], color)`: a fresh canvas holding
`color` exactly on the pixels inside or on the polygon. -/
def canvasFill (H W : ℕ) (pts : List (ℤ × ℤ)) (color : ℕ) : List (List ℕ) :=
  (List.range H).map fun (y : ℕ) => (List.range W).map fun (x : ℕ) =>
    if inOrOnPoly pts ((x : ℤ), (y : ℤ)) then color else 0

/-- `cv2.drawContours(g, [pts], 0, 0, -1)`: zero every pixel of `g` inside
or on the polygon, all other cells unchanged (shape preserved). -/
def eraseFillG (g : List (List ℕ)) (pts : List (ℤ × ℤ)) : List (List ℕ) :=
  (List.range (gridH g)).map fun (y : ℕ) =>
    (List.range ((g.getD y []).length)).map fun (x : ℕ) =>
      if inOrOnPoly pts ((x : ℤ), (y : ℤ)) then 0 else gVal g (y, x)

/-! ## `mask_fill_holes` (source lines 151–180)

The mask is complemented (`np.bitwise_not`), thresholded with
`THRESH_BINARY_INV` at 1 (so a cell becomes 255 exactly when the original
value is at least 254), flood-filled from the single seed `(0, 0)` with
255, complemented again and or-ed with the thresholded image. -/

/-- `im_th`: 255 where `mask % 256 ≥ 254`, else 0
(`threshold(~mask, 1, 255, THRESH_BINARY_INV)`). -/
def fhTh (g : List (List ℕ)) : List (List ℕ) :=
  g.map (List.map (fun v => if 1 < 255 - v % 256 then 0 else 255))

/-- `cv2.floodFill` region predicate: in bounds and equal to the seed value
(zero color tolerance, 4-connectivity). -/
def fhFg (g : List (List ℕ)) : ℕ × ℕ → Bool :=
  fun p => inBounds g p && decide (gVal (fhTh g) p = gVal (fhTh g) (0, 0))

/-- Pixels repainted by `cv2.floodFill(im_floodfill, mask, (0, 0), 255)`:
the 4-connected equal-value region of the corner seed. -/
def fhS (g : List (List ℕ)) : List (ℕ × ℕ) :=
  floodFrom (fhFg g) nbrs4 [(0, 0)] (gridH g * gridW g)

/-- `mask_fill_holes(mask)`: `im_th | ~im_floodfill` cellwise. -/
def mask_fill_holes (g : List (List ℕ)) : List (List ℕ) :=
  (List.range (gridH g)).map fun (y : ℕ) =>
    (List.range ((g.getD y []).length)).map fun (x : ℕ) =>
      Nat.lor (gVal (fhTh g) (y, x))
        (bnot8 (if decide ((y, x) ∈ fhS g) then 255 else gVal (fhTh g) (y, x)))

/-! ## Minimum enclosing circle (`cv2.minEnclosingCircle`)

Exact rational computation: the minimum enclosing circle of a finite point
set is determined by two diametral points or by three points on its
boundary, so the minimum-radius covering candidate among all pairs and
triples is the answer.  The float-returning OpenCV call followed by
Python's `int()` is modelled by exact truncation. -/

/-- Squared distance from a rational centre to an integer point. -/
def dist2Q (c : ℚ × ℚ) (p : ℤ × ℤ) : ℚ :=
  (c.1 - (p.1 : ℚ)) ^ 2 + (c.2 - (p.2 : ℚ)) ^ 2

/-- Circle with diameter `[a, b]`: centre and squared radius. -/
def circlePair (a b : ℤ × ℤ) : (ℚ × ℚ) × ℚ :=
  let c : ℚ × ℚ := (((a.1 + b.1 : ℤ) : ℚ) / 2, ((a.2 + b.2 : ℤ) : ℚ) / 2)
  (c, dist2Q c a)

/-- Circumscribed circle of a nondegenerate triangle. -/
def circleTriple (a b c : ℤ × ℤ) : Option ((ℚ × ℚ) × ℚ) :=
  let d : ℤ := 2 * (a.1 * (b.2 - c.2) + b.1 * (c.2 - a.2) + c.1 * (a.2 - b.2))
  if d = 0 then none
  else
    let na : ℤ := a.1 ^ 2 + a.2 ^ 2
    let nb : ℤ := b.1 ^ 2 + b.2 ^ 2
    let nc : ℤ := c.1 ^ 2 + c.2 ^ 2
    let ux : ℚ := ((na * (b.2 - c.2) + nb * (c.2 - a.2) + nc * (a.2 - b.2) : ℤ) : ℚ) / (d : ℚ)
    let uy : ℚ := ((na * (c.1 - b.1) + nb * (a.1 - c.1) + nc * (b.1 - a.1) : ℤ) : ℚ) / (d : ℚ)
    some ((ux, uy), dist2Q (ux, uy) a)

/-- All pair and triple candidate circles of a point list. -/
def mecCandidates (pts : List (ℤ × ℤ)) : List ((ℚ × ℚ) × ℚ) :=
  (pts.flatMap fun a => pts.map fun b => circlePair a b) ++
    (pts.flatMap fun a => pts.flatMap fun b =>
      pts.filterMap fun c => circleTriple a b c)

/-- Candidate covers every point. -/
def mecCovers (cand : (ℚ × ℚ) × ℚ) (pts : List (ℤ × ℤ)) : Bool :=
  pts.all (fun p => decide (dist2Q cand.1 p ≤ cand.2))

/-- Exact minimum enclosing circle (centre, squared radius). -/
def mecQ (pts : List (ℤ × ℤ)) : (ℚ × ℚ) × ℚ :=
  match pts with
  | [] => ((0, 0), 0)
  | [p] => (((p.1 : ℚ), (p.2 : ℚ)), 0)
  | _ =>
    match (mecCandidates pts).filter (fun c => mecCovers c pts) with
    | [] => ((0, 0), 0)
    | c :: cs => cs.foldl (fun b c2 => if c2.2 < b.2 then c2 else b) c

/-- Python `int()` on an exact rational: truncation toward zero. -/
def pyTrunc (q : ℚ) : ℤ := q.num.tdiv (q.den : ℤ)

/-- `int(radius)` for `radius = sqrt(r2)`, `r2 ≥ 0`: the integer square
root of the floor of `r2` (⌊√x⌋ = ⌊√⌊x⌋⌋ for nonnegative `x`). -/
def intSqrtQ (r2 : ℚ) : ℕ := Nat.sqrt (r2.num.toNat / r2.den)

/-! ## `mask_bounding_circle` (source lines 200–213)

`threshold(mask, 1, 255, THRESH_BINARY_INV)` turns exactly the cells of
value at most 1 into 255, so the contours are those of the LOW-valued
region; `contours[0]` is the first contour of the raster scan, and an
empty contour list is an `IndexError`, modelled as the named error the
specification demands. -/

/-- Thresholded image of `mask_bounding_circle`: 255 where `v % 256 ≤ 1`. -/
def bcTh (g : List (List ℕ)) : List (List ℕ) :=
  g.map (List.map (fun v => if 1 < v % 256 then 0 else 255))

/-- Foreground of the thresholded image. -/
def bcFg (g : List (List ℕ)) : ℕ × ℕ → Bool :=
  fun p => inBounds g p && decide (gVal g p % 256 ≤ 1)

/-- Contour components of the thresholded image, in raster order. -/
def bcComps (g : List (List ℕ)) : List (List (ℕ × ℕ)) :=
  componentsIn (gridH g) (gridW g) (bcFg g)

/-- Integer circle of a contour: `(int(x), int(y)), int(radius)` applied to
the exact minimum enclosing circle. -/
def bcCircle (pts : List (ℤ × ℤ)) : (ℤ × ℤ) × ℕ :=
  ((pyTrunc (mecQ pts).1.1, pyTrunc (mecQ pts).1.2), intSqrtQ (mecQ pts).2)

/-- `mask_bounding_circle(mask)`: minimum enclosing circle of the first
contour; integer centre coordinates and integer radius. -/
def mask_bounding_circle (g : List (List ℕ)) : Except String ((ℤ × ℤ) × ℕ) :=
  match bcComps g with
  | [] => Except.error "NoContourError"
  | comp :: _ =>
    Except.ok (bcCircle
      (cntPoints (bcFg g) (comp.headD (0, 0)) (4 * (gridH g * gridW g) + 8)))

/-! ## `mask_delete_contour_in` (source lines 216–238)

Contours of the uint8 mask are extracted once; each contour with
`cv2.contourArea > 100` and truncated centroid row strictly below the
boundary is filled with 0 on the working copy. -/

/-- Foreground of the uint8-cast mask. -/
def mdciFg (g : List (List ℕ)) : ℕ × ℕ → Bool :=
  fun p => inBounds g p && decide (gVal g p % 256 ≠ 0)

/-- Contours (in OpenCV point order) of the mask's components. -/
def mdciCnts (g : List (List ℕ)) : List (List (ℤ × ℤ)) :=
  (componentsIn (gridH g) (gridW g) (mdciFg g)).map
    (fun comp => cntPoints (mdciFg g) (comp.headD (0, 0)) (4 * (gridH g * gridW g) + 8))

/-- Pruning test: `cv2.contourArea(contour) > 100` — that is,
`|shoelace2| / 2 > 100`, i.e. `|shoelace2| > 200` — and truncated centroid
`cy < region`. -/
def mdciSel (pts : List (ℤ × ℤ)) (region : ℤ) : Bool :=
  decide (200 < (shoelace2 pts).natAbs) && decide (centroidYI pts < region)

/-- `mask_delete_contour_in(mask, region)`: fold the conditional erasures
over the contour list, starting from the uint8 copy of the mask. -/
def mask_delete_contour_in (g : List (List ℕ)) (region : ℤ) : List (List ℕ) :=
  (mdciCnts g).foldl
    (fun acc pts => if mdciSel pts region then eraseFillG acc pts else acc)
    (g.map (List.map (· % 256)))

/-! ## `mask_biggest_connected_component` (source lines 277–296)

The mask is cast to uint8 and its nonzero cells set to 255; the externally
connected components are extracted; with no component the ORIGINAL mask is
returned unchanged; otherwise the contour of greatest `cv2.contourArea`
(first maximum wins, as Python's `max`) is filled with the value 1 on a
zero canvas of the same shape. -/

/-- Foreground of `f_m_binary` (same nonzero set as the uint8 mask). -/
def bccFg (g : List (List ℕ)) : ℕ × ℕ → Bool :=
  fun p => inBounds g p && decide (gVal g p % 256 ≠ 0)

/-- Components of the binarised mask, raster order. -/
def bccComps (g : List (List ℕ)) : List (List (ℕ × ℕ)) :=
  componentsIn (gridH g) (gridW g) (bccFg g)

/-- Contours of the components. -/
def bccCnts (g : List (List ℕ)) : List (List (ℤ × ℤ)) :=
  (bccComps g).map
    (fun comp => cntPoints (bccFg g) (comp.headD (0, 0)) (4 * (gridH g * gridW g) + 8))

/-- `max(contours, key=cv2.contourArea)`: first maximum under the strict
comparison of `|shoelace2|` (equivalently of the half-areas). -/
def bccBest (g : List (List ℕ)) : List (ℤ × ℤ) :=
  match bccCnts g with
  | [] => []
  | c :: cs =>
    cs.foldl (fun best c2 =>
      if (shoelace2 best).natAbs < (shoelace2 c2).natAbs then c2 else best) c

/-- `mask_biggest_connected_component(mask)`. -/
def mask_biggest_connected_component (g : List (List ℕ)) : List (List ℕ) :=
  if bccComps g = [] then g
  else canvasFill (gridH g) (gridW g) (bccBest g) 1

/-- Selected-pixel count of a mask image (`np.count_nonzero` on the grid). -/
def countGrid (g : List (List ℕ)) : ℕ := (g.map countNZ).sum

/-! ## Region-growing lemmas -/

/-- One step of the growing relation: `b` is a foreground neighbour of `a`. -/
def stepRel (fg : ℕ × ℕ → Bool) (nb : ℕ × ℕ → List (ℕ × ℕ)) (a b : ℕ × ℕ) : Prop :=
  b ∈ nb a ∧ fg b = true

/-- Reachability through foreground neighbours. -/
def ReachFrom (fg : ℕ × ℕ → Bool) (nb : ℕ × ℕ → List (ℕ × ℕ)) (s p : ℕ × ℕ) : Prop :=
  Relation.ReflTransGen (stepRel fg nb) s p

theorem mem_bfsFresh {fg nb} {v f : List (ℕ × ℕ)} {q : ℕ × ℕ} :
    q ∈ bfsFresh fg nb v f ↔ (∃ p ∈ f, q ∈ nb p) ∧ fg q = true ∧ q ∉ v := by
  simp [bfsFresh, List.mem_dedup, List.mem_filter, List.mem_flatMap,
    Bool.and_eq_true, Bool.not_eq_true', decide_eq_false_iff_not]

theorem bfsAux_prefix (fg nb) :
    ∀ (fuel : ℕ) (v f : List (ℕ × ℕ)), ∃ t, bfsAux fg nb fuel v f = v ++ t := by
  intro fuel
  induction fuel with
  | zero => intro v f; exact ⟨[], by simp [bfsAux]⟩
  | succ n ih =>
    intro v f
    rw [bfsAux]
    by_cases h : bfsFresh fg nb v f = []
    · rw [if_pos h]; exact ⟨[], by simp⟩
    · rw [if_neg h]
      obtain ⟨t, ht⟩ := ih (v ++ bfsFresh fg nb v f) (bfsFresh fg nb v f)
      exact ⟨bfsFresh fg nb v f ++ t, by rw [ht, List.append_assoc]⟩

theorem bfsAux_sound (fg nb) (Q : ℕ × ℕ → Prop)
    (hstep : ∀ p q, Q p → q ∈ nb p → fg q = true → Q q) :
    ∀ (fuel : ℕ) (v f : List (ℕ × ℕ)), (∀ p ∈ v, Q p) → (∀ p ∈ f, Q p) →
      ∀ p ∈ bfsAux fg nb fuel v f, Q p := by
  intro fuel
  induction fuel with
  | zero => intro v f hv _ p hp; exact hv p hp
  | succ n ih =>
    intro v f hv hf p hp
    rw [bfsAux] at hp
    by_cases h : bfsFresh fg nb v f = []
    · rw [if_pos h] at hp; exact hv p hp
    · rw [if_neg h] at hp
      have hfresh : ∀ r ∈ bfsFresh fg nb v f, Q r := by
        intro r hr
        obtain ⟨⟨p', hp', hnb⟩, hfg, _⟩ := mem_bfsFresh.mp hr
        exact hstep p' r (hf p' hp') hnb hfg
      refine ih (v ++ bfsFresh fg nb v f) (bfsFresh fg nb v f) ?_ hfresh p hp
      intro r hr
      rcases List.mem_append.mp hr with h1 | h2
      · exact hv r h1
      · exact hfresh r h2

theorem bfsAux_closed (fg nb) (dom : List (ℕ × ℕ))
    (hfgdom : ∀ q, fg q = true → q ∈ dom) :
    ∀ (fuel : ℕ) (v f : List (ℕ × ℕ)), v.Nodup → (∀ p ∈ v, p ∈ dom) →
      (∀ p ∈ f, p ∈ v) →
      (∀ p ∈ v, p ∉ f → ∀ q ∈ nb p, fg q = true → q ∈ v) →
      dom.length + 1 ≤ fuel + v.length →
      ∀ p ∈ bfsAux fg nb fuel v f, ∀ q ∈ nb p, fg q = true →
        q ∈ bfsAux fg nb fuel v f := by
  intro fuel
  induction fuel with
  | zero =>
    intro v f hnd hsub _ _ hfuel
    exfalso
    have h1 : v.toFinset.card = v.length := List.toFinset_card_of_nodup hnd
    have h2 : v.toFinset ⊆ dom.toFinset := by
      intro a ha
      rw [List.mem_toFinset] at *
      exact hsub a ha
    have h3 := Finset.card_le_card h2
    have h4 := List.toFinset_card_le dom
    omega
  | succ n ih =>
    intro v f hnd hsub hfv hcl hfuel p hp q hq hfgq
    rw [bfsAux] at hp ⊢
    by_cases h : bfsFresh fg nb v f = []
    · rw [if_pos h] at hp ⊢
      by_cases hpf : p ∈ f
      · by_cases hqv : q ∈ v
        · exact hqv
        · exfalso
          have : q ∈ bfsFresh fg nb v f := mem_bfsFresh.mpr ⟨⟨p, hpf, hq⟩, hfgq, hqv⟩
          rw [h] at this
          exact List.not_mem_nil q this
      · exact hcl p hp hpf q hq hfgq
    · rw [if_neg h] at hp ⊢
      have hndfresh : (bfsFresh fg nb v f).Nodup := List.nodup_dedup _
      have hdisj : v.Disjoint (bfsFresh fg nb v f) := by
        intro a hav hafresh
        exact (mem_bfsFresh.mp hafresh).2.2 hav
      have hlen : 1 ≤ (bfsFresh fg nb v f).length := by
        cases hh : bfsFresh fg nb v f with
        | nil => exact absurd hh h
        | cons a t => simp
      refine ih (v ++ bfsFresh fg nb v f) (bfsFresh fg nb v f)
        (List.Nodup.append hnd hndfresh hdisj) ?_ ?_ ?_ ?_ p hp q hq hfgq
      · intro r hr
        rcases List.mem_append.mp hr with h1 | h2
        · exact hsub r h1
        · exact hfgdom r (mem_bfsFresh.mp h2).2.1
      · intro r hr
        exact List.mem_append.mpr (Or.inr hr)
      · intro r hr hrnf s hs hfgs
        rcases List.mem_append.mp hr with h1 | h2
        · by_cases hrf : r ∈ f
          · by_cases hsv : s ∈ v
            · exact List.mem_append.mpr (Or.inl hsv)
            · exact List.mem_append.mpr
                (Or.inr (mem_bfsFresh.mpr ⟨⟨r, hrf, hs⟩, hfgs, hsv⟩))
          · exact List.mem_append.mpr (Or.inl (hcl r h1 hrf s hs hfgs))
        · exact absurd h2 hrnf
      · rw [List.length_append]
        omega

theorem floodFrom_seeds_mem (fg nb) (seeds : List (ℕ × ℕ)) (fuel : ℕ) (s : ℕ × ℕ)
    (hs : s ∈ seeds) : s ∈ floodFrom fg nb seeds fuel := by
  obtain ⟨t, ht⟩ := bfsAux_prefix fg nb fuel seeds.dedup seeds.dedup
  unfold floodFrom
  rw [ht]
  exact List.mem_append.mpr (Or.inl (List.mem_dedup.mpr hs))

theorem floodFrom_value (fg nb) (seeds : List (ℕ × ℕ)) (fuel : ℕ) (p : ℕ × ℕ)
    (hp : p ∈ floodFrom fg nb seeds fuel) : p ∈ seeds ∨ fg p = true := by
  refine bfsAux_sound fg nb (fun r => r ∈ seeds ∨ fg r = true) ?_ fuel _ _ ?_ ?_ p hp
  · intro a b _ _ hfgb; exact Or.inr hfgb
  · intro r hr; exact Or.inl (List.mem_dedup.mp hr)
  · intro r hr; exact Or.inl (List.mem_dedup.mp hr)

/-- Master characterisation of `floodFrom`: with enough fuel (the length of
a carrier list containing every foreground position), membership is exactly
reachability from a seed. -/
theorem floodFrom_mem_iff (fg nb) (dom : List (ℕ × ℕ))
    (hfgdom : ∀ q, fg q = true → q ∈ dom)
    (seeds : List (ℕ × ℕ)) (hne : seeds ≠ [])
    (hsd : ∀ s ∈ seeds, s ∈ dom) (fuel : ℕ)
    (hfuel : dom.length ≤ fuel) (p : ℕ × ℕ) :
    p ∈ floodFrom fg nb seeds fuel ↔ ∃ s ∈ seeds, ReachFrom fg nb s p := by
  constructor
  · intro hp
    refine bfsAux_sound fg nb (fun r => ∃ s ∈ seeds, ReachFrom fg nb s r) ?_
      fuel _ _ ?_ ?_ p hp
    · intro a b ⟨s, hs, hreach⟩ hnb hfgb
      exact ⟨s, hs, Relation.ReflTransGen.tail hreach ⟨hnb, hfgb⟩⟩
    · intro r hr
      exact ⟨r, List.mem_dedup.mp hr, Relation.ReflTransGen.refl⟩
    · intro r hr
      exact ⟨r, List.mem_dedup.mp hr, Relation.ReflTransGen.refl⟩
  · rintro ⟨s, hs, hreach⟩
    have hlen : 1 ≤ seeds.dedup.length := by
      cases hh : seeds.dedup with
      | nil => exact absurd ((List.dedup_eq_nil seeds).mp hh) hne
      | cons a t => simp
    have hclosed := bfsAux_closed fg nb dom hfgdom fuel seeds.dedup seeds.dedup
      (List.nodup_dedup _)
      (fun r hr => hsd r (List.mem_dedup.mp hr))
      (fun r hr => hr)
      (fun r hr hrnf => absurd hr hrnf)
      (by omega)
    induction hreach with
    | refl => exact floodFrom_seeds_mem fg nb seeds fuel s hs
    | tail hab hbc ih => exact hclosed _ ih _ hbc.1 hbc.2

/-! ## Raster-order and component lemmas -/

theorem mem_rasterPositions (H W : ℕ) (p : ℕ × ℕ) :
    p ∈ rasterPositions H W ↔ p.1 < H ∧ p.2 < W := by
  cases p with
  | mk y x =>
    constructor
    · intro hmem
      simp only [rasterPositions, List.mem_flatMap, List.mem_map,
        List.mem_range] at hmem
      obtain ⟨a, ha, b, hb, heq⟩ := hmem
      cases heq
      exact ⟨ha, hb⟩
    · rintro ⟨hy, hx⟩
      simp only [rasterPositions, List.mem_flatMap, List.mem_map, List.mem_range]
      exact ⟨y, hy, x, hx, rfl⟩

theorem length_rasterPositions (H W : ℕ) :
    (rasterPositions H W).length = H * W := by
  induction H with
  | zero => simp [rasterPositions]
  | succ n ih =>
    unfold rasterPositions at *
    rw [List.range_succ, List.flatMap_append, List.length_append, ih]
    simp [Nat.succ_mul]

theorem componentsIn_ne_of_fg (H W : ℕ) (fg : ℕ × ℕ → Bool) (p : ℕ × ℕ)
    (hp : p ∈ rasterPositions H W) (hfg : fg p = true) :
    componentsIn H W fg ≠ [] := by
  unfold componentsIn
  have hgen : ∀ (l : List (ℕ × ℕ)) (acc : List (List (ℕ × ℕ))),
      (p ∈ l ∧ fg p = true) ∨ acc ≠ [] →
      l.foldl (fun acc p =>
        if fg p && !(acc.any (fun c => decide (p ∈ c))) then
          acc ++ [floodFrom fg nbrs8 [p] (H * W)]
        else acc) acc ≠ [] := by
    intro l
    induction l with
    | nil =>
      intro acc h
      rcases h with ⟨hmem, _⟩ | hne
      · exact absurd hmem (List.not_mem_nil p)
      · exact hne
    | cons a t ih =>
      intro acc h
      rw [List.foldl_cons]
      by_cases hc : (fg a && !(acc.any (fun c => decide (a ∈ c)))) = true
      · rw [if_pos hc]
        refine ih _ (Or.inr ?_)
        intro hnil
        simp at hnil
      · rw [if_neg hc]
        rcases h with ⟨hmem, hfgp⟩ | hne
        · rcases List.mem_cons.mp hmem with rfl | htail
          · -- the head is foreground; if the guard failed, it was already
            -- inside a component of acc, so acc is nonempty
            refine ih acc (Or.inr ?_)
            intro hnil
            subst hnil
            simp [hfgp] at hc
          · exact ih acc (Or.inl ⟨htail, hfgp⟩)
        · exact ih acc (Or.inr hne)
  exact hgen (rasterPositions H W) [] (Or.inl ⟨hp, hfg⟩)

theorem componentsIn_eq_nil_of_nofg (H W : ℕ) (fg : ℕ × ℕ → Bool)
    (h : ∀ p ∈ rasterPositions H W, fg p = false) :
    componentsIn H W fg = [] := by
  unfold componentsIn
  have hgen : ∀ (l : List (ℕ × ℕ)), (∀ p ∈ l, fg p = false) →
      l.foldl (fun acc p =>
        if fg p && !(acc.any (fun c => decide (p ∈ c))) then
          acc ++ [floodFrom fg nbrs8 [p] (H * W)]
        else acc) [] = [] := by
    intro l
    induction l with
    | nil => intro _; rfl
    | cons a t ih =>
      intro hall
      rw [List.foldl_cons, if_neg]
      · exact ih (fun p hp => hall p (List.mem_cons_of_mem a hp))
      · simp [hall a (List.mem_cons_self a t)]
  exact hgen _ h

/-- Every emitted component is the flood of a foreground seed. -/
theorem componentsIn_spec (H W : ℕ) (fg : ℕ × ℕ → Bool) (c : List (ℕ × ℕ))
    (hc : c ∈ componentsIn H W fg) :
    ∃ s, fg s = true ∧ s ∈ rasterPositions H W ∧
      c = floodFrom fg nbrs8 [s] (H * W) := by
  unfold componentsIn at hc
  have hgen : ∀ (l : List (ℕ × ℕ)) (acc : List (List (ℕ × ℕ))),
      (∀ p ∈ l, p ∈ rasterPositions H W) →
      (∀ c0 ∈ acc, ∃ s, fg s = true ∧ s ∈ rasterPositions H W ∧
        c0 = floodFrom fg nbrs8 [s] (H * W)) →
      ∀ c0 ∈ l.foldl (fun acc p =>
        if fg p && !(acc.any (fun c => decide (p ∈ c))) then
          acc ++ [floodFrom fg nbrs8 [p] (H * W)]
        else acc) acc,
        ∃ s, fg s = true ∧ s ∈ rasterPositions H W ∧
          c0 = floodFrom fg nbrs8 [s] (H * W) := by
    intro l
    induction l with
    | nil => intro acc _ hacc c0 hc0; exact hacc c0 hc0
    | cons a t ih =>
      intro acc hl hacc c0 hc0
      rw [List.foldl_cons] at hc0
      by_cases hcond : (fg a && !(acc.any (fun c => decide (a ∈ c)))) = true
      · rw [if_pos hcond] at hc0
        refine ih _ (fun p hp => hl p (List.mem_cons_of_mem a hp)) ?_ c0 hc0
        intro c1 hc1
        rcases List.mem_append.mp hc1 with h1 | h2
        · exact hacc c1 h1
        · have : c1 = floodFrom fg nbrs8 [a] (H * W) := by simpa using h2
          exact ⟨a, (Bool.and_eq_true _ _ |>.mp hcond).1,
            hl a (List.mem_cons_self a t), this⟩
      · rw [if_neg hcond] at hc0
        exact ih acc (fun p hp => hl p (List.mem_cons_of_mem a hp)) hacc c0 hc0
  exact hgen _ [] (fun p hp => hp) (fun c0 hc0 => absurd hc0 (List.not_mem_nil c0)) c hc

/-! ## Grid access lemmas -/

theorem getD_range_map {α : Type} (f : ℕ → α) (d : α) (n i : ℕ) (hi : i < n) :
    ((List.range n).map f).getD i d = f i := by
  rw [List.getD_eq_getElem?_getD, List.getElem?_map, List.getElem?_range hi]
  rfl

theorem gVal_build (f : ℕ → ℕ → ℕ) (rowLen : ℕ → ℕ) (H : ℕ) (y x : ℕ)
    (hy : y < H) (hx : x < rowLen y) :
    gVal ((List.range H).map fun (y : ℕ) =>
      (List.range (rowLen y)).map fun (x : ℕ) => f y x) (y, x) = f y x := by
  unfold gVal
  have h1 : (((List.range H).map fun (y : ℕ) =>
      (List.range (rowLen y)).map fun (x : ℕ) => f y x).getD y []) =
      (List.range (rowLen y)).map fun (x : ℕ) => f y x :=
    getD_range_map _ [] H y hy
  rw [h1]
  exact getD_range_map (f y) 0 (rowLen y) x hx

theorem gridH_build {α : Type} (row : ℕ → List α) (H : ℕ) :
    ((List.range H).map row).length = H := by simp

theorem rowlen_build (f : ℕ → ℕ → ℕ) (rowLen : ℕ → ℕ) (H : ℕ) (y : ℕ) (hy : y < H) :
    (((List.range H).map fun (y : ℕ) =>
      (List.range (rowLen y)).map fun (x : ℕ) => f y x).getD y []).length = rowLen y := by
  rw [getD_range_map _ [] H y hy]
  simp

theorem headD_range_map {α : Type} (f : ℕ → α) (d : α) (H : ℕ) (hH : 0 < H) :
    ((List.range H).map f).headD d = f 0 := by
  cases H with
  | zero => omega
  | succ n =>
    rw [List.range_succ_eq_map]
    rfl

/-- Row of an in-range index is a member of the grid. -/
theorem getD_mem (g : List (List ℕ)) (y : ℕ) (hy : y < g.length) :
    g.getD y [] ∈ g := by
  rw [List.getD_eq_getElem?_getD, List.getElem?_eq_getElem hy]
  exact List.getElem_mem hy

/-- In a rectangular grid every row read in range has the common width. -/
theorem IsRect.rowlen {g : List (List ℕ)} (hr : IsRect g) (y : ℕ) (hy : y < gridH g) :
    (g.getD y []).length = gridW g :=
  hr (g.getD y []) (getD_mem g y hy)

theorem gVal_map_map (h : ℕ → ℕ) (g : List (List ℕ)) (y x : ℕ)
    (hy : y < gridH g) (hx : x < (g.getD y []).length) :
    gVal (g.map (List.map h)) (y, x) = h (gVal g (y, x)) := by
  show ((g.map (List.map h)).getD y []).getD x 0 = h ((g.getD y []).getD x 0)
  have h1 : (g.map (List.map h)).getD y [] = (g.getD y []).map h := by
    rw [List.getD_eq_getElem?_getD, List.getElem?_map,
      List.getElem?_eq_getElem hy]
    simp [List.getD_eq_getElem?_getD, List.getElem?_eq_getElem hy]
  have hx' : x < ((g.getD y []).map h).length := by simpa using hx
  rw [h1, List.getD_eq_getElem _ _ hx', List.getElem_map, List.getD_eq_getElem _ _ hx]

theorem grid_ext (g1 g2 : List (List ℕ)) (hH : g1.length = g2.length)
    (hrow : ∀ y, y < g1.length → (g1.getD y []).length = (g2.getD y []).length)
    (hval : ∀ y x, y < g1.length → x < (g1.getD y []).length →
      gVal g1 (y, x) = gVal g2 (y, x)) : g1 = g2 := by
  refine List.ext_getElem hH ?_
  intro y hy1 hy2
  have hrowy := hrow y hy1
  rw [List.getD_eq_getElem?_getD, List.getElem?_eq_getElem hy1] at hrowy
  rw [List.getD_eq_getElem?_getD, List.getElem?_eq_getElem hy2] at hrowy
  refine List.ext_getElem (by simpa using hrowy) ?_
  intro x hx1 hx2
  have hgd1 : g1.getD y [] = g1[y] := List.getD_eq_getElem g1 [] hy1
  have hgd2 : g2.getD y [] = g2[y] := List.getD_eq_getElem g2 [] hy2
  have hv := hval y x hy1 (by rw [hgd1]; exact hx1)
  have e1 : gVal g1 (y, x) = g1[y][x] := by
    show (g1.getD y []).getD x 0 = g1[y][x]
    rw [hgd1]
    exact List.getD_eq_getElem _ _ hx1
  have e2 : gVal g2 (y, x) = g2[y][x] := by
    show (g2.getD y []).getD x 0 = g2[y][x]
    rw [hgd2]
    exact List.getD_eq_getElem _ _ hx2
  rw [← e1, ← e2]
  exact hv

/-! ## `mask_fill_holes` lemmas -/

theorem headD_eq_getD_zero {α : Type} (g : List α) (d : α) : g.headD d = g.getD 0 d := by
  cases g <;> rfl

theorem fhTh_gridH (g : List (List ℕ)) : gridH (fhTh g) = gridH g := by
  simp [fhTh, gridH]

theorem fhTh_rowlenD (g : List (List ℕ)) (y : ℕ) :
    ((fhTh g).getD y []).length = (g.getD y []).length := by
  by_cases hy : y < g.length
  · unfold fhTh
    rw [List.getD_eq_getElem?_getD, List.getElem?_map, List.getElem?_eq_getElem hy]
    simp [List.getD_eq_getElem?_getD, List.getElem?_eq_getElem hy]
  · unfold fhTh
    rw [List.getD_eq_getElem?_getD, List.getElem?_eq_none, List.getD_eq_getElem?_getD,
      List.getElem?_eq_none]
    · omega
    · simpa using hy

theorem fhTh_gridW (g : List (List ℕ)) : gridW (fhTh g) = gridW g := by
  unfold gridW
  rw [headD_eq_getD_zero, headD_eq_getD_zero]
  exact fhTh_rowlenD g 0

theorem fhTh_val (g : List (List ℕ)) (y x : ℕ) (hy : y < gridH g)
    (hx : x < (g.getD y []).length) :
    gVal (fhTh g) (y, x) =
      if 1 < 255 - gVal g (y, x) % 256 then 0 else 255 :=
  gVal_map_map _ g y x hy hx

theorem fhTh_val_cases (g : List (List ℕ)) (y x : ℕ) (hy : y < gridH g)
    (hx : x < (g.getD y []).length) :
    gVal (fhTh g) (y, x) = 0 ∨ gVal (fhTh g) (y, x) = 255 := by
  rw [fhTh_val g y x hy hx]
  split
  · exact Or.inl rfl
  · exact Or.inr rfl

theorem fhS_seed (g : List (List ℕ)) : (0, 0) ∈ fhS g :=
  floodFrom_seeds_mem _ _ _ _ _ (List.mem_cons_self _ _)

theorem fhS_val (g : List (List ℕ)) (p : ℕ × ℕ) (hp : p ∈ fhS g) :
    gVal (fhTh g) p = gVal (fhTh g) (0, 0) := by
  rcases floodFrom_value _ _ _ _ p hp with h1 | h2
  · have : p = (0, 0) := by simpa using h1
    rw [this]
  · have := (Bool.and_eq_true _ _ |>.mp h2).2
    exact of_decide_eq_true this

theorem inBounds_mem_raster (g : List (List ℕ)) (q : ℕ × ℕ)
    (h : inBounds g q = true) : q ∈ rasterPositions (gridH g) (gridW g) := by
  rw [mem_rasterPositions]
  unfold inBounds at h
  rw [Bool.and_eq_true, decide_eq_true_eq, decide_eq_true_eq] at h
  exact h

/-- Reach characterisation of the flood-filled corner region. -/
theorem fhS_mem_iff (g : List (List ℕ)) (hH : 0 < gridH g) (hW : 0 < gridW g)
    (p : ℕ × ℕ) :
    p ∈ fhS g ↔ ReachFrom (fhFg g) nbrs4 (0, 0) p := by
  have h := floodFrom_mem_iff (fhFg g) nbrs4
    (rasterPositions (gridH g) (gridW g))
    (fun q hq => inBounds_mem_raster g q (Bool.and_eq_true _ _ |>.mp hq).1)
    [(0, 0)] (by simp)
    (fun s hs => by
      have : s = (0, 0) := by simpa using hs
      subst this
      rw [mem_rasterPositions]
      exact ⟨hH, hW⟩)
    (gridH g * gridW g) (le_of_eq (length_rasterPositions _ _)) p
  unfold fhS
  rw [h]
  constructor
  · rintro ⟨s, hs, hr⟩
    have : s = (0, 0) := by simpa using hs
    subst this
    exact hr
  · intro hr
    exact ⟨(0, 0), List.mem_cons_self _ _, hr⟩

/-- Shape of the fill-holes output. -/
theorem fillHoles_gridH (g : List (List ℕ)) :
    gridH (mask_fill_holes g) = gridH g := by
  simp [mask_fill_holes, gridH]

theorem fillHoles_rowlenD (g : List (List ℕ)) (y : ℕ) (hy : y < gridH g) :
    ((mask_fill_holes g).getD y []).length = (g.getD y []).length := by
  unfold mask_fill_holes
  rw [getD_range_map _ [] _ y hy]
  simp

theorem fillHoles_gridW (g : List (List ℕ)) (hH : 0 < gridH g) :
    gridW (mask_fill_holes g) = gridW g := by
  unfold gridW
  rw [headD_eq_getD_zero, headD_eq_getD_zero]
  exact fillHoles_rowlenD g 0 hH

theorem fillHoles_rect (g : List (List ℕ)) (hrect : IsRect g) (hH : 0 < gridH g) :
    IsRect (mask_fill_holes g) := by
  intro row hrow
  unfold mask_fill_holes at hrow
  rw [List.mem_map] at hrow
  obtain ⟨y, hy, rfl⟩ := hrow
  rw [List.mem_range] at hy
  rw [fillHoles_gridW g hH]
  simpa using hrect.rowlen y hy

/-- Pixel formula for `mask_fill_holes`: a cell stays 0 exactly when it is
thresholded background AND belongs to the corner-seeded flooded region;
every other cell comes out 255. -/
theorem fillHoles_val (g : List (List ℕ)) (y x : ℕ) (hy : y < gridH g)
    (hx : x < (g.getD y []).length) :
    gVal (mask_fill_holes g) (y, x) =
      if gVal (fhTh g) (y, x) = 0 ∧ (y, x) ∈ fhS g then 0 else 255 := by
  have hbuild :
      gVal (mask_fill_holes g) (y, x) =
        Nat.lor (gVal (fhTh g) (y, x))
          (bnot8 (if decide ((y, x) ∈ fhS g) then 255 else gVal (fhTh g) (y, x))) := by
    unfold mask_fill_holes
    exact gVal_build _ _ (gridH g) y x hy hx
  rw [hbuild]
  rcases fhTh_val_cases g y x hy hx with hA | hA <;>
    by_cases hm : (y, x) ∈ fhS g <;>
      simp [hA, hm, bnot8] <;> decide

/-- Thresholding the output again: 0 exactly where the output is 0. -/
theorem fhTh_fillHoles_val (g : List (List ℕ)) (y x : ℕ) (hy : y < gridH g)
    (hx : x < (g.getD y []).length) :
    gVal (fhTh (mask_fill_holes g)) (y, x) =
      if gVal (fhTh g) (y, x) = 0 ∧ (y, x) ∈ fhS g then 0 else 255 := by
  have hy' : y < gridH (mask_fill_holes g) := by rw [fillHoles_gridH]; exact hy
  have hx' : x < ((mask_fill_holes g).getD y []).length := by
    rw [fillHoles_rowlenD g y hy]; exact hx
  rw [fhTh_val _ y x hy' hx', fillHoles_val g y x hy hx]
  split <;> norm_num

theorem inBounds_fillHoles (g : List (List ℕ)) (hH : 0 < gridH g) (p : ℕ × ℕ) :
    inBounds (mask_fill_holes g) p = inBounds g p := by
  unfold inBounds
  rw [fillHoles_gridH, fillHoles_gridW g hH]

/-- With a background corner, re-flooding the output recovers exactly the
same region. -/
theorem fhS_iter (g : List (List ℕ)) (hrect : IsRect g) (hH : 0 < gridH g)
    (hW : 0 < gridW g) (hsv : gVal (fhTh g) (0, 0) = 0) (p : ℕ × ℕ) :
    p ∈ fhS (mask_fill_holes g) ↔ p ∈ fhS g := by
  have hH' : 0 < gridH (mask_fill_holes g) := by rw [fillHoles_gridH]; exact hH
  have hW' : 0 < gridW (mask_fill_holes g) := by rw [fillHoles_gridW g hH]; exact hW
  have hrow0 : (g.getD 0 []).length = gridW g := hrect.rowlen 0 hH
  have hsv' : gVal (fhTh (mask_fill_holes g)) (0, 0) = 0 := by
    rw [fhTh_fillHoles_val g 0 0 hH (by omega)]
    rw [if_pos ⟨hsv, fhS_seed g⟩]
  constructor
  · intro hp
    rcases floodFrom_value _ _ _ _ p hp with h1 | h2
    · have : p = (0, 0) := by simpa using h1
      subst this
      exact fhS_seed g
    · obtain ⟨hb, hv⟩ := Bool.and_eq_true _ _ |>.mp h2
      rw [inBounds_fillHoles g hH] at hb
      obtain ⟨y, x⟩ := p
      have hyx : y < gridH g ∧ x < gridW g := by
        unfold inBounds at hb
        rw [Bool.and_eq_true, decide_eq_true_eq, decide_eq_true_eq] at hb
        exact hb
      have hx : x < (g.getD y []).length := by rw [hrect.rowlen y hyx.1]; exact hyx.2
      have hv' := of_decide_eq_true hv
      rw [fhTh_fillHoles_val g y x hyx.1 hx, hsv'] at hv'
      by_cases hc : gVal (fhTh g) (y, x) = 0 ∧ (y, x) ∈ fhS g
      · exact hc.2
      · rw [if_neg hc] at hv'
        exact absurd hv' (by norm_num)
  · intro hp
    have hreach : ReachFrom (fhFg g) nbrs4 (0, 0) p := (fhS_mem_iff g hH hW p).mp hp
    have htransport : ReachFrom (fhFg (mask_fill_holes g)) nbrs4 (0, 0) p := by
      clear hp
      induction hreach with
      | refl => exact Relation.ReflTransGen.refl
      | tail hab hstep ih =>
        rename_i a b
        refine Relation.ReflTransGen.tail ih ⟨hstep.1, ?_⟩
        have hfgb := hstep.2
        obtain ⟨hbb, hbv⟩ := Bool.and_eq_true _ _ |>.mp hfgb
        obtain ⟨y, x⟩ := b
        have hyx : y < gridH g ∧ x < gridW g := by
          unfold inBounds at hbb
          rw [Bool.and_eq_true, decide_eq_true_eq, decide_eq_true_eq] at hbb
          exact hbb
        have hx : x < (g.getD y []).length := by rw [hrect.rowlen y hyx.1]; exact hyx.2
        have hthb : gVal (fhTh g) (y, x) = 0 := by
          have := of_decide_eq_true hbv
          rw [this, hsv]
        have hbS : (y, x) ∈ fhS g :=
          (fhS_mem_iff g hH hW (y, x)).mpr (Relation.ReflTransGen.tail hab hstep)
        unfold fhFg
        rw [Bool.and_eq_true]
        constructor
        · rw [inBounds_fillHoles g hH]
          unfold inBounds
          rw [Bool.and_eq_true, decide_eq_true_eq, decide_eq_true_eq]
          exact hyx
        · rw [decide_eq_true_eq, fhTh_fillHoles_val g y x hyx.1 hx,
            if_pos ⟨hthb, hbS⟩, hsv']
    exact (fhS_mem_iff (mask_fill_holes g) hH' hW' p).mpr htransport

/-- Claim C9 (amended).  `mask_fill_holes` is idempotent on every nonempty
rectangular uint8 mask; however each application keeps a pixel unselected
exactly when it is thresholded background (value below 254) AND it lies in
the 4-connected background region of the single corner seed `(0, 0)` —
every other pixel, including border-connected background not 4-connected to
the corner, comes out selected (255).  (The embedding is a pure function,
so the input is never modified.) -/
theorem claimC9 (g : List (List ℕ)) (hrect : IsRect g) (hH : 0 < gridH g)
    (hW : 0 < gridW g) :
    mask_fill_holes (mask_fill_holes g) = mask_fill_holes g ∧
    (∀ y x, y < gridH g → x < gridW g →
      gVal (mask_fill_holes g) (y, x) =
        if gVal (fhTh g) (y, x) = 0 ∧ (y, x) ∈ fhS g then 0 else 255) := by
  have hH' : 0 < gridH (mask_fill_holes g) := by rw [fillHoles_gridH]; exact hH
  have hrow0 : (g.getD 0 []).length = gridW g := hrect.rowlen 0 hH
  constructor
  · -- idempotence, by grid extensionality
    refine grid_ext _ _ ?_ ?_ ?_
    · show gridH (mask_fill_holes (mask_fill_holes g)) = gridH (mask_fill_holes g)
      rw [fillHoles_gridH]
    · intro y hy
      have hy1 : y < gridH (mask_fill_holes g) := by
        have : (mask_fill_holes (mask_fill_holes g)).length =
            gridH (mask_fill_holes g) := fillHoles_gridH _
        omega
      exact fillHoles_rowlenD (mask_fill_holes g) y hy1
    · intro y x hy hx
      have hy1 : y < gridH (mask_fill_holes g) := by
        have : (mask_fill_holes (mask_fill_holes g)).length =
            gridH (mask_fill_holes g) := fillHoles_gridH _
        omega
      have hyg : y < gridH g := by rw [fillHoles_gridH] at hy1; exact hy1
      have hx1 : x < ((mask_fill_holes g).getD y []).length := by
        rw [fillHoles_rowlenD (mask_fill_holes g) y hy1] at hx
        exact hx
      have hxg : x < (g.getD y []).length := by
        rw [fillHoles_rowlenD g y hyg] at hx1
        exact hx1
      rw [fillHoles_val (mask_fill_holes g) y x hy1 hx1]
      rw [fillHoles_val g y x hyg hxg]
      rw [fhTh_fillHoles_val g y x hyg hxg]
      rcases fhTh_val_cases g 0 0 hH (by omega) with hsv | hsv
      · -- background corner: the flooded set is stable under iteration
        by_cases hc : gVal (fhTh g) (y, x) = 0 ∧ (y, x) ∈ fhS g
        · rw [if_pos hc, if_pos ⟨rfl, (fhS_iter g hrect hH hW hsv (y, x)).mpr hc.2⟩]
        · rw [if_neg hc]
          simp
      · -- selected corner: the first pass is all-255 and so is the second
        have hc : ¬(gVal (fhTh g) (y, x) = 0 ∧ (y, x) ∈ fhS g) := by
          rintro ⟨h0, hm⟩
          have hv := fhS_val g (y, x) hm
          rw [h0, hsv] at hv
          norm_num at hv
        rw [if_neg hc]
        simp
  · intro y x hy hx
    exact fillHoles_val g y x hy (by rw [hrect.rowlen y hy]; exact hx)

theorem claimC9_witness :
    mask_fill_holes (mask_fill_holes [[0]]) = mask_fill_holes [[0]] ∧
    (∀ y x, y < gridH [[0]] → x < gridW [[0]] →
      gVal (mask_fill_holes [[0]]) (y, x) =
        if gVal (fhTh [[0]]) (y, x) = 0 ∧ (y, x) ∈ fhS [[0]] then 0 else 255) :=
  claimC9 [[0]] (by decide) (by decide) (by decide)

/-- Claim C9 fails as stated on the border clause: in `[[255, 0]]` the
pixel `(0, 1)` is border-connected background, yet one application of
`mask_fill_holes` turns it selected (the flood fill starts only at the
corner `(0, 0)`, whose thresholded value here is foreground, so everything
becomes 255). -/
theorem claimC9_counterexample :
    gVal [[255, 0]] (0, 1) = 0 ∧ mask_fill_holes [[255, 0]] = [[255, 255]] := by
  exact ⟨rfl, by decide⟩

/-- Claim C5 (amended).  `mask_bounding_circle` computes the integer-valued
minimum enclosing circle of the FIRST contour of the inverted-threshold
binarisation (which selects the cells of value at most 1).  It fails with
the no-contour error exactly when that binarisation has no contour, i.e.
when EVERY cell value exceeds 1 — e.g. a fully selected 0/255 mask.  An
all-zero (empty) mask binarises to an all-255 image, has a contour, and
does NOT fail. -/
theorem claimC5 (g : List (List ℕ)) :
    ((∃ e, mask_bounding_circle g = Except.error e) ↔
      (∀ p, inBounds g p = true → 1 < gVal g p % 256)) ∧
    (∀ comp rest, bcComps g = comp :: rest →
      mask_bounding_circle g = Except.ok
        (bcCircle (cntPoints (bcFg g) (comp.headD (0, 0))
          (4 * (gridH g * gridW g) + 8)))) := by
  constructor
  · constructor
    · rintro ⟨e, he⟩
      cases hcomps : bcComps g with
      | nil =>
        intro p hp
        by_contra hle
        push_neg at hle
        have hfg : bcFg g p = true := by
          unfold bcFg
          rw [Bool.and_eq_true, decide_eq_true_eq]
          exact ⟨hp, hle⟩
        exact componentsIn_ne_of_fg (gridH g) (gridW g) (bcFg g) p
          (inBounds_mem_raster g p hp) hfg hcomps
      | cons c cs =>
        unfold mask_bounding_circle at he
        rw [hcomps] at he
        exact Except.noConfusion he
    · intro hall
      have hnil : bcComps g = [] := by
        refine componentsIn_eq_nil_of_nofg (gridH g) (gridW g) (bcFg g) ?_
        intro p hp
        have hb : inBounds g p = true := by
          unfold inBounds
          rw [Bool.and_eq_true, decide_eq_true_eq, decide_eq_true_eq]
          exact (mem_rasterPositions _ _ p).mp hp
        have := hall p hb
        unfold bcFg
        rw [Bool.and_eq_false_iff]
        right
        rw [decide_eq_false_iff_not]
        omega
      unfold mask_bounding_circle
      rw [hnil]
      exact ⟨"NoContourError", rfl⟩
  · intro comp rest hcomps
    unfold mask_bounding_circle
    rw [hcomps]

theorem claimC5_witness : ∃ e, mask_bounding_circle [[255]] = Except.error e :=
  (claimC5 [[255]]).1.mpr (by
    intro p hp
    unfold inBounds at hp
    rw [Bool.and_eq_true, decide_eq_true_eq, decide_eq_true_eq] at hp
    obtain ⟨y, x⟩ := p
    have hy : y = 0 := by
      have := hp.1
      simp [gridH] at this
      omega
    have hx : x = 0 := by
      have := hp.2
      simp [gridW] at this
      omega
    subst hy
    subst hx
    decide)

/-- Claim C5 fails as stated: the empty (all-zero) 2×2 mask does NOT raise —
its inverted-threshold binarisation is all 255 and has a contour. -/
theorem claimC5_counterexample :
    countGrid [[0, 0], [0, 0]] = 0 ∧
    (mask_bounding_circle [[0, 0], [0, 0]]).isOk = true := by
  exact ⟨by decide, by decide⟩

/-! ## Counting lemmas -/

theorem map_getD_range_self {α : Type} (r : List α) (d : α) :
    (List.range r.length).map (fun i => r.getD i d) = r := by
  refine List.ext_getElem (by simp) ?_
  intro i h1 h2
  rw [List.getElem_map, List.getElem_range]
  exact List.getD_eq_getElem r d h2

theorem countP_flatMap {α β : Type} (l : List α) (f : α → List β) (p : β → Bool) :
    (l.flatMap f).countP p = (l.map (fun a => (f a).countP p)).sum := by
  induction l with
  | nil => rfl
  | cons a t ih =>
    rw [List.flatMap_cons, List.countP_append, List.map_cons, List.sum_cons, ih]

theorem countP_and_split {α : Type} (l : List α) (p q : α → Bool) :
    l.countP p = l.countP (fun a => p a && q a) + l.countP (fun a => p a && !q a) := by
  induction l with
  | nil => rfl
  | cons a t ih =>
    simp only [List.countP_cons]
    by_cases hp : p a = true <;> by_cases hq : q a = true <;>
      simp [hp, hq] <;> omega

theorem countGrid_eq_sum (g : List (List ℕ)) :
    countGrid g = ((List.range (gridH g)).map (fun y => countNZ (g.getD y []))).sum := by
  unfold countGrid gridH
  conv_lhs => rw [← map_getD_range_self g [], List.map_map]
  rfl

theorem countNZ_range_map (W : ℕ) (f : ℕ → ℕ) :
    countNZ ((List.range W).map f) = (List.range W).countP (fun x => f x != 0) := by
  unfold countNZ
  rw [List.countP_map]
  rfl

/-- Selected-count of a built grid: counted over raster positions. -/
theorem countGrid_build (H W : ℕ) (f : ℕ → ℕ → ℕ) :
    countGrid ((List.range H).map fun (y : ℕ) =>
        (List.range W).map fun (x : ℕ) => f y x) =
      (rasterPositions H W).countP (fun p => f p.1 p.2 != 0) := by
  induction H with
  | zero => rfl
  | succ n ih =>
    unfold countGrid rasterPositions at *
    rw [List.range_succ, List.map_append, List.map_append, List.sum_append,
      List.flatMap_append, List.countP_append, ih]
    simp only [List.map_cons, List.map_nil, List.sum_cons, List.sum_nil,
      List.flatMap_cons, List.flatMap_nil, List.append_nil]
    rw [countNZ_range_map, List.countP_map]
    rfl

/-- Selected-count of a polygon fill canvas: the number of raster positions
inside or on the polygon (for colour 1). -/
theorem countGrid_canvasFill (H W : ℕ) (pts : List (ℤ × ℤ)) :
    countGrid (canvasFill H W pts 1) =
      (rasterPositions H W).countP
        (fun p => inOrOnPoly pts ((p.2 : ℤ), (p.1 : ℤ))) := by
  unfold canvasFill
  rw [countGrid_build]
  refine List.countP_congr ?_
  intro p _
  by_cases hio : inOrOnPoly pts ((p.2 : ℤ), (p.1 : ℤ)) = true <;> simp [hio]

/-- The foreground count over raster positions is bounded by the mask's
selected-pixel count. -/
theorem countP_fg_le_countGrid (g : List (List ℕ)) (hrect : IsRect g) :
    (rasterPositions (gridH g) (gridW g)).countP (fun p => bccFg g p) ≤
      countGrid g := by
  rw [countGrid_eq_sum]
  unfold rasterPositions
  rw [countP_flatMap]
  have hle : ∀ y < gridH g,
      ((List.range (gridW g)).map fun x => (y, x)).countP (fun p => bccFg g p) ≤
        countNZ (g.getD y []) := by
    intro y hy
    rw [List.countP_map]
    have hrow : (g.getD y []).length = gridW g := hrect.rowlen y hy
    have h1 : countNZ (g.getD y []) =
        (List.range (gridW g)).countP (fun x => (g.getD y []).getD x 0 != 0) := by
      conv_lhs => rw [← map_getD_range_self (g.getD y []) 0]
      rw [countNZ_range_map, hrow]
    rw [h1]
    refine List.countP_mono_left ?_
    intro x hx hfg
    rw [List.mem_range] at hx
    have : gVal g (y, x) % 256 ≠ 0 := by
      have := (Bool.and_eq_true _ _ |>.mp hfg).2
      exact of_decide_eq_true this
    have hne : gVal g (y, x) ≠ 0 := fun h0 => this (by rw [h0])
    unfold gVal at hne
    simpa using hne
  -- sum the per-row bounds
  have hgen : ∀ (ys : List ℕ), (∀ y ∈ ys, y < gridH g) →
      ((ys.map fun y => ((List.range (gridW g)).map fun x => (y, x)).countP
        (fun p => bccFg g p))).sum ≤
      ((ys.map fun y => countNZ (g.getD y []))).sum := by
    intro ys
    induction ys with
    | nil => intro _; exact le_refl 0
    | cons a t ih =>
      intro hall
      rw [List.map_cons, List.map_cons, List.sum_cons, List.sum_cons]
      have h1 := hle a (hall a (List.mem_cons_self a t))
      have h2 := ih (fun y hy => hall y (List.mem_cons_of_mem a hy))
      omega
  refine le_trans (hgen (List.range (gridH g)) ?_) ?_
  · intro y hy; exact List.mem_range.mp hy
  · exact le_refl _

theorem countGrid_zero_nofg (g : List (List ℕ)) (h : countGrid g = 0) :
    ∀ p ∈ rasterPositions (gridH g) (gridW g), bccFg g p = false := by
  intro p hp
  obtain ⟨y, x⟩ := p
  have hy : y < gridH g := ((mem_rasterPositions _ _ _).mp hp).1
  have hrowz : countNZ (g.getD y []) = 0 := by
    unfold countGrid at h
    have hmem : countNZ (g.getD y []) ∈ g.map countNZ :=
      List.mem_map.mpr ⟨g.getD y [], getD_mem g y hy, rfl⟩
    exact List.sum_eq_zero_iff.mp h _ hmem
  have hval : gVal g (y, x) = 0 := by
    show (g.getD y []).getD x 0 = 0
    by_cases hx : x < (g.getD y []).length
    · have hmem : (g.getD y []).getD x 0 ∈ g.getD y [] := by
        rw [List.getD_eq_getElem _ _ hx]
        exact List.getElem_mem hx
      have := List.countP_eq_zero.mp hrowz _ hmem
      simpa using this
    · rw [List.getD_eq_getElem?_getD, List.getElem?_eq_none (by omega)]
      rfl
  unfold bccFg
  rw [Bool.and_eq_false_iff]
  right
  rw [decide_eq_false_iff_not]
  rw [hval]
  decide

/-- Excess of the polygon fill over the mask's foreground: filled positions
that are not selected in the input (the enclosed holes). -/
def bccExcess (g : List (List ℕ)) : ℕ :=
  (rasterPositions (gridH g) (gridW g)).countP
    (fun p => inOrOnPoly (bccBest g) ((p.2 : ℤ), (p.1 : ℤ)) && !(bccFg g p))

/-- Claim C8 (amended).  `mask_biggest_connected_component` returns the
input unchanged when there are no externally-connected regions (in
particular on an all-zero mask); otherwise its selected-pixel count is at
most the input's count PLUS the number of filled positions that are not
foreground in the input — the filled outer contour includes enclosed
holes, so the claimed plain inequality `count(out) ≤ count(in)` fails on a
ring-shaped mask (see the counterexample). -/
theorem claimC8 (g : List (List ℕ)) (hrect : IsRect g) :
    (bccComps g = [] → mask_biggest_connected_component g = g) ∧
    (countGrid g = 0 → mask_biggest_connected_component g = g) ∧
    countGrid (mask_biggest_connected_component g) ≤ countGrid g + bccExcess g := by
  refine ⟨?_, ?_, ?_⟩
  · intro h
    unfold mask_biggest_connected_component
    rw [if_pos h]
  · intro h
    unfold mask_biggest_connected_component
    rw [if_pos (show bccComps g = [] from
      componentsIn_eq_nil_of_nofg _ _ _ (countGrid_zero_nofg g h))]
  · by_cases hc : bccComps g = []
    · unfold mask_biggest_connected_component
      rw [if_pos hc]
      exact Nat.le_add_right _ _
    · unfold mask_biggest_connected_component
      rw [if_neg hc]
      rw [countGrid_canvasFill]
      rw [countP_and_split (rasterPositions (gridH g) (gridW g))
        (fun p => inOrOnPoly (bccBest g) ((p.2 : ℤ), (p.1 : ℤ))) (fun p => bccFg g p)]
      have h1 : (rasterPositions (gridH g) (gridW g)).countP
          (fun p => inOrOnPoly (bccBest g) ((p.2 : ℤ), (p.1 : ℤ)) && bccFg g p) ≤
          countGrid g := by
        refine le_trans (List.countP_mono_left ?_) (countP_fg_le_countGrid g hrect)
        intro p _ hp
        exact (Bool.and_eq_true _ _ |>.mp hp).2
      have h2 : (rasterPositions (gridH g) (gridW g)).countP
          (fun p => inOrOnPoly (bccBest g) ((p.2 : ℤ), (p.1 : ℤ)) && !(bccFg g p)) =
          bccExcess g := rfl
      omega

theorem claimC8_witness :
    (bccComps [[0, 5], [0, 0]] = [] → mask_biggest_connected_component [[0, 5], [0, 0]] = [[0, 5], [0, 0]]) ∧
    (countGrid [[0, 5], [0, 0]] = 0 → mask_biggest_connected_component [[0, 5], [0, 0]] = [[0, 5], [0, 0]]) ∧
    countGrid (mask_biggest_connected_component [[0, 5], [0, 0]]) ≤
      countGrid [[0, 5], [0, 0]] + bccExcess [[0, 5], [0, 0]] :=
  claimC8 [[0, 5], [0, 0]] (by decide)

/-- Claim C8 fails as stated: on the 3×3 ring (donut) mask the extracted
"largest component" fills the centre hole, so the output holds 9 selected
pixels while the input holds 8. -/
theorem claimC8_counterexample :
    countGrid [[255, 255, 255], [255, 0, 255], [255, 255, 255]] = 8 ∧
    countGrid (mask_biggest_connected_component
      [[255, 255, 255], [255, 0, 255], [255, 255, 255]]) = 9 := by
  exact ⟨by decide, by decide⟩

/-! ## Contour head and vertex lemmas -/

theorem floodFrom_headD (fg nb) (s : ℕ × ℕ) (fuel : ℕ) :
    (floodFrom fg nb [s] fuel).headD (0, 0) = s := by
  have hd : ([s] : List (ℕ × ℕ)).dedup = [s] := by simp
  obtain ⟨t, ht⟩ := bfsAux_prefix fg nb fuel ([s] : List (ℕ × ℕ)).dedup
    ([s] : List (ℕ × ℕ)).dedup
  unfold floodFrom
  rw [ht, hd]
  rfl

theorem traceBoundary_head (fgb : ℤ × ℤ → Bool) (s : ℤ × ℤ) (fuel : ℕ)
    (h : fgb s = true) : ∃ t, traceBoundary fgb s fuel = s :: t := by
  unfold traceBoundary
  rw [if_pos h]
  cases hfd : findDir fgb s 0 with
  | none => exact ⟨[], rfl⟩
  | some d0 => exact ⟨_, rfl⟩

theorem onSeg_self (a b : ℤ × ℤ) : onSeg a b a = true := by
  unfold onSeg
  rw [Bool.and_eq_true, Bool.and_eq_true, Bool.and_eq_true, Bool.and_eq_true]
  refine ⟨⟨⟨⟨?_, ?_⟩, ?_⟩, ?_⟩, ?_⟩ <;> rw [decide_eq_true_eq]
  · ring
  · exact min_le_left _ _
  · exact le_max_left _ _
  · exact min_le_left _ _
  · exact le_max_left _ _

theorem polyClose_edge_of_mem (pts : List (ℤ × ℤ)) (q : ℤ × ℤ) (hq : q ∈ pts) :
    ∃ b, (q, b) ∈ polyClose pts := by
  obtain ⟨i, hi, rfl⟩ := List.getElem_of_mem hq
  have hlen : (pts.drop 1 ++ pts.take 1).length = pts.length := by simp; omega
  have hi2 : i < (pts.drop 1 ++ pts.take 1).length := by omega
  have hiz : i < (pts.zip (pts.drop 1 ++ pts.take 1)).length := by
    rw [List.length_zip]; omega
  refine ⟨(pts.drop 1 ++ pts.take 1).get ⟨i, hi2⟩, ?_⟩
  unfold polyClose
  have hzip : (pts.zip (pts.drop 1 ++ pts.take 1)).get ⟨i, hiz⟩ =
      (pts[i], (pts.drop 1 ++ pts.take 1).get ⟨i, hi2⟩) := by
    rw [List.get_eq_getElem, List.getElem_zip, List.get_eq_getElem]
  rw [← hzip]
  exact List.get_mem _ _ _

theorem inOrOnPoly_vertex (pts : List (ℤ × ℤ)) (q : ℤ × ℤ) (hq : q ∈ pts) :
    inOrOnPoly pts q = true := by
  unfold inOrOnPoly
  rw [Bool.and_eq_true]
  constructor
  · cases pts with
    | nil => exact absurd hq (List.not_mem_nil q)
    | cons a t => rfl
  · rw [Bool.or_eq_true]
    left
    rw [List.any_eq_true]
    obtain ⟨b, hb⟩ := polyClose_edge_of_mem pts q hq
    exact ⟨(q, b), hb, onSeg_self q b⟩

theorem canvasFill_val (H W : ℕ) (pts : List (ℤ × ℤ)) (color : ℕ) (y x : ℕ)
    (hy : y < H) (hx : x < W) :
    gVal (canvasFill H W pts color) (y, x) =
      if inOrOnPoly pts ((x : ℤ), (y : ℤ)) then color else 0 := by
  unfold canvasFill
  exact gVal_build _ (fun _ => W) H y x hy hx

theorem foldl_max_mem {α : Type} (f : α → ℕ) (c : α) (cs : List α) :
    cs.foldl (fun b c2 => if f b < f c2 then c2 else b) c ∈ c :: cs := by
  induction cs generalizing c with
  | nil => exact List.mem_cons_self c []
  | cons a t ih =>
    rw [List.foldl_cons]
    by_cases hlt : f c < f a
    · rw [if_pos hlt]
      have := ih a
      rcases List.mem_cons.mp this with h | h
      · rw [h]; exact List.mem_cons_of_mem c (List.mem_cons_self a t)
      · exact List.mem_cons_of_mem c (List.mem_cons_of_mem a h)
    · rw [if_neg hlt]
      have := ih c
      rcases List.mem_cons.mp this with h | h
      · rw [h]; exact List.mem_cons_self c (a :: t)
      · exact List.mem_cons_of_mem c (List.mem_cons_of_mem a h)

theorem bccBest_mem (g : List (List ℕ)) (h : bccComps g ≠ []) :
    bccBest g ∈ bccCnts g := by
  unfold bccBest
  cases hc : bccCnts g with
  | nil =>
    exfalso
    unfold bccCnts at hc
    exact h (List.map_eq_nil_iff.mp hc)
  | cons c cs => exact foldl_max_mem (fun pts => (shoelace2 pts).natAbs) c cs

theorem cntPoints_head_mem (fg : ℕ × ℕ → Bool) (s : ℕ × ℕ) (fuel : ℕ)
    (h : fg s = true) :
    ((s.2 : ℤ), (s.1 : ℤ)) ∈ cntPoints fg s fuel := by
  unfold cntPoints traceOf
  have hfgz : fgZof fg ((s.1 : ℤ), (s.2 : ℤ)) = true := by
    unfold fgZof
    simp [h]
  obtain ⟨t, ht⟩ := traceBoundary_head (fgZof fg) ((s.1 : ℤ), (s.2 : ℤ)) fuel hfgz
  rw [ht, List.map_cons]
  exact List.mem_cons_self _ _

/-- Claim C10 (confirmed).  When the input has at least one
externally-connected region, the output of
`mask_biggest_connected_component` holds only the values 0 and 1 — the
kept region is painted with `fillPoly(..., 1)` on a zero canvas — and at
least one cell holds 1; in particular a 0/255-encoded input does not keep
its storage encoding. -/
theorem claimC10 (g : List (List ℕ)) (h : bccComps g ≠ []) :
    (∀ row ∈ mask_biggest_connected_component g, ∀ v ∈ row, v = 0 ∨ v = 1) ∧
    (∃ p, inBounds g p = true ∧ gVal (mask_biggest_connected_component g) p = 1) := by
  have hout : mask_biggest_connected_component g =
      canvasFill (gridH g) (gridW g) (bccBest g) 1 := by
    unfold mask_biggest_connected_component
    rw [if_neg h]
  constructor
  · intro row hrow v hv
    rw [hout] at hrow
    unfold canvasFill at hrow
    rw [List.mem_map] at hrow
    obtain ⟨y, _, rfl⟩ := hrow
    rw [List.mem_map] at hv
    obtain ⟨x, _, rfl⟩ := hv
    split
    · exact Or.inr rfl
    · exact Or.inl rfl
  · obtain ⟨comp, hcomp, hbest⟩ := by
      have hb := bccBest_mem g h
      unfold bccCnts at hb
      rw [List.mem_map] at hb
      exact hb
    obtain ⟨s, hfgs, hsr, hcflood⟩ := componentsIn_spec _ _ _ comp hcomp
    have hhead : comp.headD (0, 0) = s := by rw [hcflood]; exact floodFrom_headD _ _ s _
    have hsb : inBounds g s = true := (Bool.and_eq_true _ _ |>.mp hfgs).1
    have hsyx : s.1 < gridH g ∧ s.2 < gridW g := by
      unfold inBounds at hsb
      rw [Bool.and_eq_true, decide_eq_true_eq, decide_eq_true_eq] at hsb
      exact hsb
    have hvert : inOrOnPoly (bccBest g) ((s.2 : ℤ), (s.1 : ℤ)) = true := by
      rw [← hbest, ← hhead]
      exact inOrOnPoly_vertex _ _
        (cntPoints_head_mem (bccFg g) (comp.headD (0, 0)) _ (by rw [hhead]; exact hfgs))
    refine ⟨s, hsb, ?_⟩
    rw [hout]
    have := canvasFill_val (gridH g) (gridW g) (bccBest g) 1 s.1 s.2 hsyx.1 hsyx.2
    rw [show ((s.1 : ℕ), (s.2 : ℕ)) = s from rfl] at this
    rw [this, if_pos hvert]

theorem claimC10_witness :
    (∀ row ∈ mask_biggest_connected_component [[0, 5], [0, 255]],
      ∀ v ∈ row, v = 0 ∨ v = 1) ∧
    (∃ p, inBounds [[0, 5], [0, 255]] p = true ∧
      gVal (mask_biggest_connected_component [[0, 5], [0, 255]]) p = 1) :=
  claimC10 [[0, 5], [0, 255]] (by decide)

/-! ## `mask_delete_contour_in` lemmas

`cv2.findContours(..., RETR_TREE, ...)` also returns hole contours.  The
component-level model above lists only outer contours, which is faithful
exactly when the mask has no holes: every background pixel is 4-connected
to a border background pixel.  The characterisation below therefore
assumes hole-freeness. -/

/-- Background pixels 4-connected to a border background pixel. -/
def borderBG (g : List (List ℕ)) : List (ℕ × ℕ) :=
  floodFrom (fun p => inBounds g p && decide (gVal g p % 256 = 0)) nbrs4
    ((rasterPositions (gridH g) (gridW g)).filter
      (fun p => (decide (p.1 = 0) || decide (p.1 + 1 = gridH g) ||
        decide (p.2 = 0) || decide (p.2 + 1 = gridW g)) &&
        decide (gVal g p % 256 = 0)))
    (gridH g * gridW g)

/-- Hole-freeness: all background is border-connected. -/
def holeFree (g : List (List ℕ)) : Prop :=
  ∀ p ∈ rasterPositions (gridH g) (gridW g), gVal g p % 256 = 0 → p ∈ borderBG g

instance (g : List (List ℕ)) : Decidable (holeFree g) := by
  unfold holeFree; infer_instance

theorem map_map_rowlenD (f : ℕ → ℕ) (g : List (List ℕ)) (y : ℕ) :
    ((g.map (List.map f)).getD y []).length = (g.getD y []).length := by
  by_cases hy : y < g.length
  · rw [List.getD_eq_getElem?_getD, List.getElem?_map, List.getElem?_eq_getElem hy]
    simp [List.getD_eq_getElem?_getD, List.getElem?_eq_getElem hy]
  · rw [List.getD_eq_getElem?_getD, List.getElem?_eq_none, List.getD_eq_getElem?_getD,
      List.getElem?_eq_none]
    · omega
    · simpa using hy

theorem eraseFillG_gridH (b : List (List ℕ)) (pts : List (ℤ × ℤ)) :
    gridH (eraseFillG b pts) = gridH b := by
  simp [eraseFillG, gridH]

theorem eraseFillG_rowlenD (b : List (List ℕ)) (pts : List (ℤ × ℤ)) (y : ℕ)
    (hy : y < gridH b) :
    ((eraseFillG b pts).getD y []).length = (b.getD y []).length := by
  unfold eraseFillG
  rw [getD_range_map _ [] _ y hy]
  simp

theorem eraseFillG_val (b : List (List ℕ)) (pts : List (ℤ × ℤ)) (y x : ℕ)
    (hy : y < gridH b) (hx : x < (b.getD y []).length) :
    gVal (eraseFillG b pts) (y, x) =
      if inOrOnPoly pts ((x : ℤ), (y : ℤ)) then 0 else gVal b (y, x) := by
  unfold eraseFillG
  exact gVal_build _ _ (gridH b) y x hy hx

/-- Pixel characterisation of the erase fold: a cell is zeroed exactly when
some selected contour's fill covers it, and is otherwise untouched. -/
theorem foldl_erase_val (region : ℤ) (cnts : List (List (ℤ × ℤ))) :
    ∀ (b : List (List ℕ)) (y x : ℕ), y < gridH b → x < (b.getD y []).length →
      gVal (cnts.foldl (fun acc pts =>
        if mdciSel pts region = true then eraseFillG acc pts else acc) b) (y, x) =
        if ∃ pts ∈ cnts, mdciSel pts region = true ∧
            inOrOnPoly pts ((x : ℤ), (y : ℤ)) = true then 0
        else gVal b (y, x) := by
  induction cnts with
  | nil =>
    intro b y x hy hx
    simp
  | cons c cs ih =>
    intro b y x hy hx
    rw [List.foldl_cons]
    by_cases hsel : mdciSel c region = true
    · rw [if_pos hsel]
      have hy' : y < gridH (eraseFillG b c) := by rw [eraseFillG_gridH]; exact hy
      have hx' : x < ((eraseFillG b c).getD y []).length := by
        rw [eraseFillG_rowlenD b c y hy]; exact hx
      rw [ih (eraseFillG b c) y x hy' hx', eraseFillG_val b c y x hy hx]
      by_cases hex : ∃ pts ∈ cs, mdciSel pts region = true ∧
          inOrOnPoly pts ((x : ℤ), (y : ℤ)) = true
      · rw [if_pos hex, if_pos (by
          obtain ⟨p, hp, h1, h2⟩ := hex
          exact ⟨p, List.mem_cons_of_mem c hp, h1, h2⟩)]
      · rw [if_neg hex]
        by_cases hin : inOrOnPoly c ((x : ℤ), (y : ℤ)) = true
        · rw [if_pos hin, if_pos ⟨c, List.mem_cons_self c cs, hsel, hin⟩]
        · rw [if_neg hin, if_neg ?_]
          rintro ⟨p, hp, h1, h2⟩
          rcases List.mem_cons.mp hp with rfl | htail
          · exact hin h2
          · exact hex ⟨p, htail, h1, h2⟩
    · rw [if_neg hsel, ih b y x hy hx]
      by_cases hex : ∃ pts ∈ cs, mdciSel pts region = true ∧
          inOrOnPoly pts ((x : ℤ), (y : ℤ)) = true
      · rw [if_pos hex, if_pos (by
          obtain ⟨p, hp, h1, h2⟩ := hex
          exact ⟨p, List.mem_cons_of_mem c hp, h1, h2⟩)]
      · rw [if_neg hex, if_neg ?_]
        rintro ⟨p, hp, h1, h2⟩
        rcases List.mem_cons.mp hp with rfl | htail
        · exact hsel h1
        · exact hex ⟨p, htail, h1, h2⟩

/-- Claim C7 (amended).  On a rectangular hole-free mask,
`mask_delete_contour_in` zeroes exactly the cells covered by the filled
polygon of some contour whose `cv2.contourArea` exceeds 100 AND whose
truncated centroid row lies strictly below the boundary; all other cells
carry the uint8-cast input value.  Selection is by the traced-boundary
polygon area (`|shoelace2|/2 > 100`), NOT by the pixel count: a region of
101 pixels whose polygon area is 0 survives (see the counterexample). -/
theorem claimC7 (g : List (List ℕ)) (region : ℤ) (hrect : IsRect g)
    (hhf : holeFree g) (y x : ℕ) (hy : y < gridH g) (hx : x < gridW g) :
    gVal (mask_delete_contour_in g region) (y, x) =
      if ∃ pts ∈ mdciCnts g, mdciSel pts region = true ∧
          inOrOnPoly pts ((x : ℤ), (y : ℤ)) = true then 0
      else gVal g (y, x) % 256 := by
  have hxrow : x < (g.getD y []).length := by rw [hrect.rowlen y hy]; exact hx
  have hbH : gridH (g.map (List.map (· % 256))) = gridH g := by simp [gridH]
  have hbx : x < ((g.map (List.map (· % 256))).getD y []).length := by
    rw [map_map_rowlenD]; exact hxrow
  unfold mask_delete_contour_in
  rw [foldl_erase_val region (mdciCnts g) _ y x (by rw [hbH]; exact hy) hbx]
  rw [gVal_map_map _ g y x hy hxrow]

theorem claimC7_witness :
    gVal (mask_delete_contour_in [[1]] 5) (0, 0) =
      if ∃ pts ∈ mdciCnts [[1]], mdciSel pts 5 = true ∧
          inOrOnPoly pts (((0 : ℕ) : ℤ), ((0 : ℕ) : ℤ)) = true then 0
      else gVal [[1]] (0, 0) % 256 :=
  claimC7 [[1]] 5 (by decide) (by decide) 0 0 (by decide) (by decide)

set_option maxRecDepth 100000 in
/-- Claim C7 fails as stated: a single horizontal line of 101 selected
pixels has pixel area 101 > 100 and centroid row 0 < 5, so the claim
demands its erasure; but `cv2.contourArea` of its traced contour is 0, so
the code leaves the mask unchanged. -/
theorem claimC7_counterexample :
    100 < countGrid [List.replicate 101 (255 : ℕ)] ∧
    mask_delete_contour_in [List.replicate 101 (255 : ℕ)] 5 =
      [List.replicate 101 (255 : ℕ)] := by
  exact ⟨by decide, by decide⟩
